import Mathlib

/-!
Verification of the deep-read repository's core text pipelines.

The development shallowly embeds the two algorithmic modules of the
repository over `List Char`:

* `translate.py` — `chunk_text` (sentence-respecting chunker) and
  `translate_chunk` (bounded-retry translation of one chunk), with the
  static `LANGUAGE_MAP` alias table;
* `tts.py` — `clean_text_for_tts` (the ordered regex rewrite pipeline),
  the gTTS fallback language normalisation (`GTTS_LANGUAGES`), the rate
  conversion of `text_to_speech_with_voice`, and the orchestration of the
  primary/secondary synthesis providers (providers abstracted as
  function parameters; `none` models a raised exception).

Each Python regex pass is embedded as a structurally recursive scanner
mirroring the left-to-right, non-overlapping semantics of `re.sub`.
Whitespace is modelled as the ASCII whitespace set
`' ', '\t', '\n', '\r', '\x0b', '\x0c'` (the characters relevant to the
regular expressions and `str.strip` for the texts at issue).  Python
floats are modelled as exact rationals; `int()` on a rational is
truncation toward zero.
-/

/-- Python whitespace (ASCII fragment): the set matched by `\s` and
stripped by `str.strip`. -/
def pyIsSpace (c : Char) : Bool :=
  c = ' ' || c = '\t' || c = '\n' || c = '\r' || c = '\x0b' || c = '\x0c'

/-- The punctuation class `[.,!?;:]` of `clean_text_for_tts`. -/
def isPunct (c : Char) : Bool :=
  c = '.' || c = ',' || c = '!' || c = '?' || c = ';' || c = ':'

/-- The letter class `[A-Za-z]` (also `[a-z]` with `re.IGNORECASE`). -/
def isAsciiLetter (c : Char) : Bool :=
  ('a' ≤ c && c ≤ 'z') || ('A' ≤ c && c ≤ 'Z')

/-- Drop a trailing whitespace run (the right half of Python `str.strip`). -/
def stripR : List Char → List Char
  | [] => []
  | c :: rest =>
    if (stripR rest).isEmpty && pyIsSpace c then [] else c :: stripR rest

/-- Python `str.strip()`: drop leading and trailing whitespace. -/
def stripL (l : List Char) : List Char :=
  stripR (l.dropWhile pyIsSpace)

/-- `headOk R a l` holds when `R a b` holds for the head `b` of `l`
(vacuously for empty `l`). -/
def headOk (R : Char → Char → Bool) (a : Char) (l : List Char) : Bool :=
  match l.head? with
  | none => true
  | some b => R a b

/-- `pairwiseAdj R l` holds when every pair of adjacent characters of `l`
satisfies `R`. -/
def pairwiseAdj (R : Char → Char → Bool) : List Char → Bool
  | [] => true
  | a :: rest => headOk R a rest && pairwiseAdj R rest

/-! ### translate.py : chunk_text -/

/-- Python `str.replace(a, b)` for single characters. -/
def replaceChar (a b : Char) (l : List Char) : List Char :=
  l.map fun c => if c = a then b else c

/-- Python `str.replace("\n\n", ". ")`: left-to-right, non-overlapping. -/
def replaceNlNl : List Char → List Char
  | [] => []
  | [c] => [c]
  | c :: d :: rest =>
    if c = '\n' && d = '\n' then '.' :: ' ' :: replaceNlNl rest
    else c :: replaceNlNl (d :: rest)

/-- Python `str.split('.')` (keeps empty pieces). -/
def splitOnDot : List Char → List (List Char)
  | [] => [[]]
  | c :: rest =>
    if c = '.' then [] :: splitOnDot rest
    else
      match splitOnDot rest with
      | [] => [[c]]
      | s :: ss => (c :: s) :: ss

/-- Python `str.split()` with no separator: maximal non-whitespace runs.
`acc` buffers the word being read, in reverse. -/
def pyWordsGo (acc : List Char) : List Char → List (List Char)
  | [] => if acc.isEmpty then [] else [acc.reverse]
  | c :: rest =>
    if pyIsSpace c then
      if acc.isEmpty then pyWordsGo [] rest else acc.reverse :: pyWordsGo [] rest
    else pyWordsGo (c :: acc) rest

def pyWords (l : List Char) : List (List Char) := pyWordsGo [] l

/-- The inner word loop of `chunk_text` (state: chunks so far, running
buffer `current_chunk`). -/
def processWord (maxC : Nat) (st : List (List Char) × List Char) (w : List Char) :
    List (List Char) × List Char :=
  if st.2.length + w.length + 1 > maxC then
    (if st.2.isEmpty then st.1 else st.1 ++ [stripL st.2], w ++ [' '])
  else (st.1, st.2 ++ w ++ [' '])

/-- One iteration of the sentence loop of `chunk_text`. -/
def processSentence (maxC : Nat) (st : List (List Char) × List Char) (sen : List Char) :
    List (List Char) × List Char :=
  let s := stripL sen
  if s.isEmpty then st
  else if st.2.length + s.length + 2 > maxC then
    if st.2.isEmpty then (pyWords s).foldl (processWord maxC) st
    else (st.1 ++ [stripL st.2], s ++ ". ".toList)
  else (st.1, st.2 ++ s ++ ". ".toList)

/-- `chunk_text(text, max_chunk_size)` from translate.py. -/
def chunkText (text : List Char) (maxC : Nat) : List (List Char) :=
  if text.length ≤ maxC then [text]
  else
    let normalized := replaceNlNl (replaceChar '?' '.' (replaceChar '!' '.' text))
    let st := (splitOnDot normalized).foldl (processSentence maxC) ([], [])
    if (stripL st.2).isEmpty then st.1 else st.1 ++ [stripL st.2]

/-! ### translate.py : LANGUAGE_MAP and translate_chunk -/

/-- The static language alias table `LANGUAGE_MAP`. -/
def LANGUAGE_MAP : List (List Char × List Char) :=
  [("en".toList, "en".toList), ("si".toList, "si".toList), ("ta".toList, "ta".toList),
   ("hi".toList, "hi".toList), ("es".toList, "es".toList), ("fr".toList, "fr".toList),
   ("de".toList, "de".toList), ("zh-CN".toList, "zh-CN".toList), ("zh".toList, "zh-CN".toList),
   ("ja".toList, "ja".toList), ("ko".toList, "ko".toList), ("ar".toList, "ar".toList),
   ("ru".toList, "ru".toList), ("pt".toList, "pt".toList), ("it".toList, "it".toList),
   ("nl".toList, "nl".toList), ("tr".toList, "tr".toList)]

/-- `target_lang = LANGUAGE_MAP.get(target_lang, target_lang)` in
`translate_chunk`: the language actually handed to the provider. -/
def translateChunkEffectiveLang (targetLang : List Char) : List Char :=
  (LANGUAGE_MAP.lookup targetLang).getD targetLang

/-- `validate_language_code` from translate.py (not called by
`translate_chunk`): unknown codes default to `"en"`. -/
def validateLanguageCode (langCode : List Char) : List Char :=
  match LANGUAGE_MAP.lookup langCode with
  | some normalized => normalized
  | none => "en".toList

/-- One provider response: `none` models a raised exception, `some t`
a returned translation (possibly empty). -/
def attemptFails : Option (List Char) → Bool
  | none => true
  | some t => t.isEmpty

/-- The retry loop of `translate_chunk`.  `provider n` is the provider
response on attempt number `n` (0-based); the result pairs the returned
text with the number of attempts performed. -/
def translateChunkGo (provider : Nat → Option (List Char)) (chunk : List Char) :
    Nat → Nat → List Char × Nat
  | used, 0 => (chunk, used)
  | used, rem + 1 =>
    match provider used with
    | some t => if 0 < t.length then (t, used + 1)
                else translateChunkGo provider chunk (used + 1) rem
    | none => translateChunkGo provider chunk (used + 1) rem

/-- `translate_chunk(chunk, target_lang, retry_count)`: normalises the
language through `LANGUAGE_MAP` and runs the bounded retry loop against
the (abstracted) provider. -/
def translateChunk (provider : List Char → Nat → Option (List Char))
    (chunk targetLang : List Char) (retryCount : Nat) : List Char × Nat :=
  translateChunkGo (provider (translateChunkEffectiveLang targetLang)) chunk 0 retryCount

/-! ### tts.py : clean_text_for_tts

Each regex substitution of `clean_text_for_tts` is embedded as a
structurally recursive left-to-right scanner with the non-overlapping
match semantics of `re.sub`. -/

/-- Pass `re.sub(r' +', ' ', text)`: collapse runs of space characters.
`prevSpace` records that the scanner is inside a space run whose single
space has already been emitted. -/
def collapseSpacesAux (prevSpace : Bool) : List Char → List Char
  | [] => []
  | c :: rest =>
    if c = ' ' then
      if prevSpace then collapseSpacesAux true rest
      else ' ' :: collapseSpacesAux true rest
    else c :: collapseSpacesAux false rest

/-- Pass `re.sub(r'(?<!\n)\n(?!\n)', ' ', text)`: replace a newline whose
original neighbours are not newlines.  `prev` is the original previous
character. -/
def singleNlGo (prev : Option Char) : List Char → List Char
  | [] => []
  | c :: rest =>
    if c = '\n' then
      if prev ≠ some '\n' && rest.head? ≠ some '\n' then
        ' ' :: singleNlGo (some '\n') rest
      else '\n' :: singleNlGo (some '\n') rest
    else c :: singleNlGo (some c) rest

/-- Pass `re.sub(r'\n{2,}', '. ', text)`: replace each maximal run of two
or more newlines by `". "`.  `skipping` means the scanner is consuming the
tail of a run already replaced. -/
def paraGo (skipping : Bool) : List Char → List Char
  | [] => []
  | [c] => if skipping && c = '\n' then [] else [c]
  | c :: d :: rest =>
    if skipping then
      if c = '\n' then paraGo true (d :: rest)
      else c :: paraGo false (d :: rest)
    else
      if c = '\n' && d = '\n' then '.' :: ' ' :: paraGo true rest
      else c :: paraGo false (d :: rest)

/-- Pass `re.sub(r'([a-z])\n([a-z])', r'\1 \2', text, flags=re.IGNORECASE)`:
letter–newline–letter becomes letter–space–letter (non-overlapping). -/
def nlJoinGo : List Char → List Char
  | [] => []
  | [c] => [c]
  | [c, d] => [c, d]
  | a :: b :: c :: rest =>
    if b = '\n' && isAsciiLetter a && isAsciiLetter c then
      a :: ' ' :: c :: nlJoinGo rest
    else a :: nlJoinGo (b :: c :: rest)

/-- Scanner state for the de-hyphenation pass: `pending buf` means a `'-'`
has been read followed by the (reversed) whitespace buffer `buf`, none of
it a newline yet; `skipping` means a newline was found and the trailing
`\s*` is being consumed. -/
inductive HyphState where
  | normal : HyphState
  | pending : List Char → HyphState
  | skipping : HyphState

/-- Pass `re.sub(r'-\s*\n\s*', '', text)`: a hyphen followed by a
whitespace run containing a newline is deleted together with that run. -/
def hyphGo : HyphState → List Char → List Char
  | .normal, [] => []
  | .pending buf, [] => '-' :: buf.reverse
  | .skipping, [] => []
  | .normal, c :: rest =>
    if c = '-' then hyphGo (.pending []) rest
    else c :: hyphGo .normal rest
  | .pending buf, c :: rest =>
    if c = '\n' then hyphGo .skipping rest
    else if pyIsSpace c then hyphGo (.pending (c :: buf)) rest
    else if c = '-' then ('-' :: buf.reverse) ++ hyphGo (.pending []) rest
    else ('-' :: buf.reverse) ++ c :: hyphGo .normal rest
  | .skipping, c :: rest =>
    if pyIsSpace c then hyphGo .skipping rest
    else if c = '-' then hyphGo (.pending []) rest
    else c :: hyphGo .normal rest

/-- Pass `re.sub(r'\s+([.,!?;:])', r'\1', text)`: delete a whitespace run
immediately preceding a punctuation character.  `some b` buffers the
(reversed) whitespace run read so far. -/
def wsPunctGo : Option (List Char) → List Char → List Char
  | none, [] => []
  | some b, [] => b.reverse
  | none, c :: rest =>
    if pyIsSpace c then wsPunctGo (some [c]) rest
    else c :: wsPunctGo none rest
  | some b, c :: rest =>
    if pyIsSpace c then wsPunctGo (some (c :: b)) rest
    else if isPunct c then c :: wsPunctGo none rest
    else b.reverse ++ c :: wsPunctGo none rest

/-- Pass `re.sub(r'([.,!?;:])\s*([.,!?;:])', r'\1\2', text)`: delete
whitespace between two punctuation characters.  `some (p, b)` records the
first punctuation character and the (reversed) whitespace after it. -/
def punctWsGo : Option (Char × List Char) → List Char → List Char
  | none, [] => []
  | some (p, b), [] => p :: b.reverse
  | none, c :: rest =>
    if isPunct c then punctWsGo (some (c, [])) rest
    else c :: punctWsGo none rest
  | some (p, b), c :: rest =>
    if isPunct c then p :: c :: punctWsGo none rest
    else if pyIsSpace c then punctWsGo (some (p, c :: b)) rest
    else p :: b.reverse ++ c :: punctWsGo none rest

/-- Pass `re.sub(r'([.,!?;:])([A-Za-z])', r'\1 \2', text)`: insert a space
between a punctuation character and a directly following letter. -/
def punctLetterGo : List Char → List Char
  | [] => []
  | [c] => [c]
  | c :: d :: rest =>
    if isPunct c && isAsciiLetter d then c :: ' ' :: d :: punctLetterGo rest
    else c :: punctLetterGo (d :: rest)

/-- Pass `re.sub(r'\.{2,}', '.', text)`: collapse each maximal run of two
or more periods to a single period. -/
def dotsGo (skipping : Bool) : List Char → List Char
  | [] => []
  | [c] => if skipping && c = '.' then [] else [c]
  | c :: d :: rest =>
    if skipping then
      if c = '.' then dotsGo true (d :: rest)
      else c :: dotsGo false (d :: rest)
    else
      if c = '.' && d = '.' then '.' :: dotsGo true rest
      else c :: dotsGo false (d :: rest)

/-- Final step: `if text and not text[-1] in '.!?': text += '.'`. -/
def ensureTerminal (l : List Char) : List Char :=
  if ¬l.isEmpty ∧ ¬(l.getLast? = some '.' ∨ l.getLast? = some '!' ∨ l.getLast? = some '?') then
    l ++ ['.']
  else l

/-- `clean_text_for_tts(text)` from tts.py: the ordered rewrite pipeline. -/
def cleanTextForTts (text : List Char) : List Char :=
  if text.isEmpty then []
  else
    let t1 := collapseSpacesAux false text
    let t2 := singleNlGo none t1
    let t3 := paraGo false t2
    let t4 := nlJoinGo t3
    let t5 := hyphGo .normal t4
    let t6 := t5.map fun c => if c = '\n' then ' ' else c
    let t7 := collapseSpacesAux false t6
    let t8 := wsPunctGo none t7
    let t9 := punctWsGo none t8
    let t10 := punctLetterGo t9
    let t11 := stripL t10
    let t12 := dotsGo false t11
    ensureTerminal t12

/-! ### tts.py : gTTS fallback, voices, rate conversion, orchestration -/

/-- The set `GTTS_LANGUAGES` of language codes accepted for the gTTS
fallback. -/
def GTTS_LANGUAGES : List (List Char) :=
  ["en".toList, "si".toList, "ta".toList, "hi".toList, "es".toList, "fr".toList,
   "de".toList, "zh-CN".toList, "ja".toList, "ko".toList, "ar".toList, "ru".toList,
   "pt".toList, "it".toList, "nl".toList, "tr".toList]

/-- The language-code computation of `text_to_speech_generate`:
`gtts_lang = lang.split('-')[0] if '-' in lang else lang`, replaced by
`"en"` when not in `GTTS_LANGUAGES`. -/
def gttsLang (lang : List Char) : List Char :=
  let g0 := if lang.contains '-' then lang.takeWhile (fun c => c ≠ '-') else lang
  if GTTS_LANGUAGES.contains g0 then g0 else "en".toList

/-- `EDGE_VOICES['male']`. -/
def EDGE_VOICES_male : List (List Char × List Char) :=
  [("en".toList, "en-US-GuyNeural".toList), ("si".toList, "si-LK-SameeraNeural".toList),
   ("ta".toList, "ta-IN-ValluvarNeural".toList), ("hi".toList, "hi-IN-MadhurNeural".toList),
   ("es".toList, "es-ES-AlvaroNeural".toList), ("fr".toList, "fr-FR-HenriNeural".toList),
   ("de".toList, "de-DE-ConradNeural".toList), ("zh-CN".toList, "zh-CN-YunxiNeural".toList),
   ("ja".toList, "ja-JP-KeitaNeural".toList), ("ko".toList, "ko-KR-InJoonNeural".toList),
   ("ar".toList, "ar-SA-HamedNeural".toList), ("ru".toList, "ru-RU-DmitryNeural".toList),
   ("pt".toList, "pt-BR-AntonioNeural".toList), ("it".toList, "it-IT-DiegoNeural".toList),
   ("nl".toList, "nl-NL-MaartenNeural".toList), ("tr".toList, "tr-TR-AhmetNeural".toList)]

/-- `EDGE_VOICES['female']`. -/
def EDGE_VOICES_female : List (List Char × List Char) :=
  [("en".toList, "en-US-JennyNeural".toList), ("si".toList, "si-LK-ThiliniNeural".toList),
   ("ta".toList, "ta-IN-PallaviNeural".toList), ("hi".toList, "hi-IN-SwaraNeural".toList),
   ("es".toList, "es-ES-ElviraNeural".toList), ("fr".toList, "fr-FR-DeniseNeural".toList),
   ("de".toList, "de-DE-KatjaNeural".toList), ("zh-CN".toList, "zh-CN-XiaoxiaoNeural".toList),
   ("ja".toList, "ja-JP-NanamiNeural".toList), ("ko".toList, "ko-KR-SunHiNeural".toList),
   ("ar".toList, "ar-SA-ZariyahNeural".toList), ("ru".toList, "ru-RU-SvetlanaNeural".toList),
   ("pt".toList, "pt-BR-FranciscaNeural".toList), ("it".toList, "it-IT-ElsaNeural".toList),
   ("nl".toList, "nl-NL-ColetteNeural".toList), ("tr".toList, "tr-TR-EmelNeural".toList)]

/-- Python `int()` on a rational: truncation toward zero. -/
def pyInt (q : ℚ) : ℤ := if 0 ≤ q then ⌊q⌋ else ⌈q⌉

/-- The format `f"{rate_percent:+d}%"`: signed decimal then percent. -/
def formatRatePercent (n : ℤ) : List Char :=
  (if 0 ≤ n then '+' :: Nat.toDigits 10 n.toNat else '-' :: Nat.toDigits 10 (-n).toNat) ++ ['%']

/-- The rate string of `text_to_speech_with_voice`:
`rate_percent = int((speed - 1.0) * 100); rate = f"{rate_percent:+d}%"`. -/
def ttsRate (speed : ℚ) : List Char :=
  formatRatePercent (pyInt ((speed - 1) * 100))

/-- The gTTS fallback speed flag: `slow = speed < 0.9`. -/
def fallbackSlow (speed : ℚ) : Bool := decide (speed < 9/10)

/-- `text_to_speech_generate(text, lang, slow)`: clean the text, normalise
the language for gTTS, call the secondary provider.  The provider is
abstract; `none` models the raised `Exception`. -/
def textToSpeechGenerate {α : Type} (secondary : List Char → List Char → Bool → Option α)
    (text lang : List Char) (slow : Bool) : Option α :=
  secondary (cleanTextForTts text) (gttsLang lang) slow

/-- The voice map selection `EDGE_VOICES.get(voice_type.lower(), EDGE_VOICES['female'])`. -/
def voiceMapFor (voiceType : List Char) : List (List Char × List Char) :=
  if voiceType.map Char.toLower = "male".toList then EDGE_VOICES_male else EDGE_VOICES_female

/-- The voice lookup `voice_map.get(lang, voice_map.get('en'))`. -/
def voiceFor (voiceType lang : List Char) : List Char :=
  (((voiceMapFor voiceType).lookup lang).or ((voiceMapFor voiceType).lookup "en".toList)).getD []

/-- `text_to_speech_with_voice(text, voice_type, speed, lang)`: clean the
text; an empty cleaned text raises `ValueError` inside the `try`, which the
function's own `except` catches, so control falls to the gTTS fallback with
the cleaned text.  Otherwise the primary (Edge TTS) provider is called
with the resolved voice and rate; `none` (any primary failure) also falls
to the gTTS fallback. -/
def textToSpeechWithVoice {α : Type}
    (primary : List Char → List Char → List Char → Option α)
    (secondary : List Char → List Char → Bool → Option α)
    (text voiceType : List Char) (speed : ℚ) (lang : List Char) : Option α :=
  let cleaned := cleanTextForTts text
  if cleaned.isEmpty || (stripL cleaned).isEmpty then
    textToSpeechGenerate secondary cleaned lang (fallbackSlow speed)
  else
    let t := stripL cleaned
    match primary t (voiceFor voiceType lang) (ttsRate speed) with
    | some audio => some audio
    | none => textToSpeechGenerate secondary t lang (fallbackSlow speed)

/-! ### Helper lemmas for the rate conversion -/

theorem pyInt_intCast (n : ℤ) : pyInt (n : ℚ) = n := by
  rw [pyInt]
  split
  · exact Int.floor_intCast n
  · exact Int.ceil_intCast n

/-! ### Claims C2, C3, C4, C5, C7, C8 -/

/-- C2: the de-hyphenation pass of `clean_text_for_tts` never fires,
because the single-newline pass has already replaced the line break by a
space; on `"exam-\nple"` the function returns `"exam- ple."`, not the
documented `"example."`. -/
theorem cleanTextForTts_hyphen_newline_eval :
    cleanTextForTts "exam-\nple".toList = "exam- ple.".toList ∧
    cleanTextForTts "exam-\nple".toList ≠ "example.".toList := by decide

/-- C3 counterexample: `translate_chunk` normalises the target language by
`LANGUAGE_MAP.get(target_lang, target_lang)`, so the unknown code `"xx"`
is passed through unchanged, not replaced by `"en"`. -/
theorem translateChunk_unknown_lang_counterexample :
    LANGUAGE_MAP.lookup "xx".toList = none ∧
    translateChunkEffectiveLang "xx".toList = "xx".toList ∧
    translateChunkEffectiveLang "xx".toList ≠ "en".toList := by decide

/-- C3 (amended): in `translate_chunk` a target language present in the
alias table is replaced by its alias and an unknown code is passed through
unchanged; it is the separate `validate_language_code` helper (which
`translate_chunk` does not call) that defaults unknown codes to `"en"`. -/
theorem translateChunk_lang_normalization :
    (∀ targetLang v : List Char, LANGUAGE_MAP.lookup targetLang = some v →
        translateChunkEffectiveLang targetLang = v) ∧
    (∀ targetLang : List Char, LANGUAGE_MAP.lookup targetLang = none →
        translateChunkEffectiveLang targetLang = targetLang) ∧
    validateLanguageCode "xx".toList = "en".toList := by
  refine ⟨?_, ?_, by decide⟩
  · intro l v h; rw [translateChunkEffectiveLang, h]; rfl
  · intro l h; rw [translateChunkEffectiveLang, h]; rfl

/-- C3 witness: the alias `"zh"` is normalised to `"zh-CN"` through the
table. -/
theorem translateChunk_lang_normalization_witness :
    translateChunkEffectiveLang "zh".toList = "zh-CN".toList :=
  translateChunk_lang_normalization.1 "zh".toList "zh-CN".toList (by decide)

/-- C4: requesting `"zh-CN"` on the gTTS fallback path is region-stripped
to `"zh"`, which is not in `GTTS_LANGUAGES` (the set lists only
`"zh-CN"`, unreachable after stripping), so the code silently substitutes
`"en"` instead of using the normalised Chinese code. -/
theorem gttsLang_zhCN_eval :
    gttsLang "zh-CN".toList = "en".toList ∧
    gttsLang "zh-CN".toList ≠ "zh".toList ∧
    "zh-CN".toList ∈ GTTS_LANGUAGES ∧
    "zh".toList ∉ GTTS_LANGUAGES := by decide

/-- C5: on whitespace-only input the `ValueError` raised inside
`text_to_speech_with_voice` is caught by the function's own blanket
`except`, which invokes the gTTS fallback with the empty cleaned text;
with a secondary provider that accepts empty text the function returns
that provider's audio instead of raising an input error. -/
theorem textToSpeechWithVoice_empty_input_eval :
    textToSpeechWithVoice (fun _ _ _ => (none : Option Nat)) (fun _ _ _ => some 7)
      "   ".toList "male".toList 1 "en".toList = some 7 ∧
    cleanTextForTts "   ".toList = [] := by decide

/-- The retry loop with an always-failing provider performs all remaining
attempts and returns the original chunk. -/
theorem translateChunkGo_all_fail (provider : Nat → Option (List Char)) (chunk : List Char)
    (h : ∀ n, attemptFails (provider n) = true) :
    ∀ rem used, translateChunkGo provider chunk used rem = (chunk, used + rem) := by
  intro rem
  induction rem with
  | zero => intro used; rfl
  | succ m ih =>
    intro used
    rw [translateChunkGo]
    cases hp : provider used with
    | none =>
      rw [ih (used + 1), show used + 1 + m = used + (m + 1) by omega]
    | some t =>
      have ht : t = [] := by
        have := h used
        rw [hp, attemptFails] at this
        exact List.isEmpty_iff.mp this
      subst ht
      simp only [List.length_nil, Nat.lt_irrefl, if_false]
      rw [ih (used + 1), show used + 1 + m = used + (m + 1) by omega]

/-- C7: against a provider failing on every call (exception or empty
result), `translate_chunk` performs exactly `retryCount` attempts, never
raises, and returns the original chunk content unchanged (hence the
orchestrator's success heuristic `translated != chunk` marks it failed). -/
theorem translateChunk_all_fail (provider : List Char → Nat → Option (List Char))
    (chunk targetLang : List Char) (retryCount : Nat)
    (h : ∀ lang n, attemptFails (provider lang n) = true) :
    translateChunk provider chunk targetLang retryCount = (chunk, retryCount) := by
  rw [translateChunk, translateChunkGo_all_fail _ _ (h _) retryCount 0, Nat.zero_add]

/-- C7 witness: a provider stub that always raises, with the default three
attempts. -/
theorem translateChunk_all_fail_witness :
    translateChunk (fun _ _ => none) "hola".toList "es".toList 3 = ("hola".toList, 3) :=
  translateChunk_all_fail _ _ _ 3 (fun _ _ => rfl)

/-- C8 counterexample: at speed 1.999 the code truncates
`(speed − 1) × 100 = 99.9` to `"+99%"`, while the claimed formula
`round((speed − 1) × 100)` gives 100. -/
theorem ttsRate_round_counterexample :
    ttsRate (1999/1000) = "+99%".toList ∧
    formatRatePercent (round (((1999 : ℚ)/1000 - 1) * 100)) = "+100%".toList ∧
    "+99%".toList ≠ "+100%".toList := by
  have hq : (((1999 : ℚ)/1000 - 1) * 100) = 999/10 := by norm_num
  refine ⟨?_, ?_, by decide⟩
  · rw [ttsRate]
    have h : pyInt (((1999 : ℚ)/1000 - 1) * 100) = 99 := by
      rw [pyInt, if_pos (by rw [hq]; norm_num), hq]
      norm_num
    rw [h]; decide
  · have h : round (((1999 : ℚ)/1000 - 1) * 100) = 100 := by
      rw [hq, round_eq]; norm_num
    rw [h]; decide

/-- C8 (amended): the rate adjustment is the truncation toward zero of
`(speed − 1) × 100` formatted as a signed percentage, which agrees with
the claimed `round` exactly when that quantity is an integer — as in the
examples 1.5 → `"+50%"` and 0.5 → `"-50%"`; speed below 0.9 sets the gTTS
`slow` flag. -/
theorem ttsRate_trunc_and_examples :
    (∀ (speed : ℚ) (n : ℤ), (speed - 1) * 100 = (n : ℚ) →
        ttsRate speed = formatRatePercent (round ((speed - 1) * 100))) ∧
    ttsRate (3/2) = "+50%".toList ∧
    ttsRate (1/2) = "-50%".toList ∧
    (∀ speed : ℚ, fallbackSlow speed = true ↔ speed < 9/10) := by
  refine ⟨?_, ?_, ?_, ?_⟩
  · intro speed n h
    rw [ttsRate, h, pyInt_intCast, round_intCast]
  · rw [ttsRate]
    have h : pyInt (((3 : ℚ)/2 - 1) * 100) = 50 := by
      rw [show (((3 : ℚ)/2 - 1) * 100) = ((50 : ℤ) : ℚ) by norm_num]
      exact pyInt_intCast 50
    rw [h]; decide
  · rw [ttsRate]
    have h : pyInt (((1 : ℚ)/2 - 1) * 100) = -50 := by
      rw [show (((1 : ℚ)/2 - 1) * 100) = ((-50 : ℤ) : ℚ) by norm_num]
      exact pyInt_intCast (-50)
    rw [h]; decide
  · intro speed
    rw [fallbackSlow]
    exact decide_eq_true_iff

/-- C8 witness: at speed 2 the truncation and the claimed rounding agree. -/
theorem ttsRate_trunc_witness :
    ttsRate 2 = formatRatePercent (round (((2 : ℚ) - 1) * 100)) :=
  ttsRate_trunc_and_examples.1 2 100 (by norm_num)

/-! ### Strip, word and split lemmas for the chunker -/

theorem stripR_sublist (l : List Char) : List.Sublist (stripR l) l := by
  induction l with
  | nil => exact List.Sublist.refl []
  | cons c rest ih =>
    rw [stripR]
    split
    · exact List.nil_sublist _
    · exact List.Sublist.cons₂ c ih

theorem stripL_sublist (l : List Char) : List.Sublist (stripL l) l :=
  (stripR_sublist _).trans (List.dropWhile_sublist _)

theorem stripR_all_ws (l : List Char) (h : stripR l = []) :
    ∀ c ∈ l, pyIsSpace c = true := by
  induction l with
  | nil => simp
  | cons c rest ih =>
    rw [stripR] at h
    split at h
    next hc =>
      obtain ⟨h1, h2⟩ : (stripR rest).isEmpty = true ∧ pyIsSpace c = true := by
        simpa using hc
      intro x hx
      rcases List.mem_cons.mp hx with rfl | hx
      · exact h2
      · exact ih (List.isEmpty_iff.mp h1) x hx
    next => cases h

theorem stripL_all_ws (l : List Char) (h : stripL l = []) :
    ∀ c ∈ l, pyIsSpace c = true := by
  intro x hx
  rw [← List.takeWhile_append_dropWhile pyIsSpace l] at hx
  rcases List.mem_append.mp hx with h1 | h2
  · exact List.mem_takeWhile_imp h1
  · exact stripR_all_ws _ h x h2

theorem stripL_ne_nil_of_nonws (l : List Char) (c : Char) (hc : c ∈ l)
    (hws : pyIsSpace c = false) : stripL l ≠ [] := by
  intro h
  rw [stripL_all_ws l h c hc] at hws
  cases hws

theorem stripR_idem (l : List Char) : stripR (stripR l) = stripR l := by
  induction l with
  | nil => rfl
  | cons c rest ih =>
    rw [stripR]
    split
    · rfl
    next hcond =>
      rw [stripR, ih, if_neg hcond]

theorem stripR_head? (l : List Char) (c : Char) (h : (stripR l).head? = some c) :
    l.head? = some c := by
  cases l with
  | nil => cases h
  | cons a rest =>
    rw [stripR] at h
    split at h
    · cases h
    · cases h; rfl

theorem head_dropWhile_not (p : Char → Bool) (l : List Char) (c : Char)
    (h : (l.dropWhile p).head? = some c) : p c = false := by
  induction l with
  | nil => cases h
  | cons a rest ih =>
    rw [List.dropWhile_cons] at h
    split at h
    · exact ih h
    next hp =>
      cases h
      exact Bool.not_eq_true _ ▸ Bool.of_not_eq_true hp

theorem stripL_idem (l : List Char) : stripL (stripL l) = stripL l := by
  rw [stripL, stripL]
  cases hx : stripR (l.dropWhile pyIsSpace) with
  | nil => rfl
  | cons c r =>
    have hc : pyIsSpace c = false := by
      have h1 : (stripR (l.dropWhile pyIsSpace)).head? = some c := by rw [hx]; rfl
      exact head_dropWhile_not _ _ _ (stripR_head? _ _ h1)
    rw [List.dropWhile_cons, if_neg (by simp [hc]), ← hx, stripR_idem]

theorem stripL_head_nonws (l : List Char) (c : Char) (h : (stripL l).head? = some c) :
    pyIsSpace c = false :=
  head_dropWhile_not _ _ _ (stripR_head? _ _ h)

theorem pyWordsGo_subset : ∀ (l acc : List Char), ∀ w ∈ pyWordsGo acc l,
    ∀ c ∈ w, c ∈ acc ∨ c ∈ l := by
  intro l
  induction l with
  | nil =>
    intro acc w hw c hc
    rw [pyWordsGo] at hw
    split at hw
    · cases hw
    · rcases List.mem_singleton.mp hw with rfl
      exact Or.inl (List.mem_reverse.mp hc)
  | cons a rest ih =>
    intro acc w hw c hc
    rw [pyWordsGo] at hw
    split at hw
    · split at hw
      · rcases ih [] w hw c hc with h | h
        · cases h
        · exact Or.inr (List.mem_cons_of_mem a h)
      · rcases List.mem_cons.mp hw with rfl | hw
        · exact Or.inl (List.mem_reverse.mp hc)
        · rcases ih [] w hw c hc with h | h
          · cases h
          · exact Or.inr (List.mem_cons_of_mem a h)
    · rcases ih (a :: acc) w hw c hc with h | h
      · rcases List.mem_cons.mp h with rfl | h
        · exact Or.inr (List.mem_cons_self _ _)
        · exact Or.inl h
      · exact Or.inr (List.mem_cons_of_mem a h)

theorem pyWordsGo_ne_nil : ∀ (l acc : List Char), ∀ w ∈ pyWordsGo acc l, w ≠ [] := by
  intro l
  induction l with
  | nil =>
    intro acc w hw
    rw [pyWordsGo] at hw
    split at hw
    · cases hw
    next hne =>
      rcases List.mem_singleton.mp hw with rfl
      intro h
      exact hne (by simp [List.isEmpty_iff, ← List.reverse_eq_nil_iff, h])
  | cons a rest ih =>
    intro acc w hw
    rw [pyWordsGo] at hw
    split at hw
    · split at hw
      · exact ih [] w hw
      next hne =>
        rcases List.mem_cons.mp hw with rfl | hw
        · intro h
          exact hne (by simp [List.isEmpty_iff, ← List.reverse_eq_nil_iff, h])
        · exact ih [] w hw
    · exact ih (a :: acc) w hw

theorem pyWordsGo_no_ws : ∀ (l acc : List Char), (∀ c ∈ acc, pyIsSpace c = false) →
    ∀ w ∈ pyWordsGo acc l, ∀ c ∈ w, pyIsSpace c = false := by
  intro l
  induction l with
  | nil =>
    intro acc hacc w hw c hc
    rw [pyWordsGo] at hw
    split at hw
    · cases hw
    · rcases List.mem_singleton.mp hw with rfl
      exact hacc c (List.mem_reverse.mp hc)
  | cons a rest ih =>
    intro acc hacc w hw c hc
    rw [pyWordsGo] at hw
    split at hw
    · split at hw
      · exact ih [] (by simp) w hw c hc
      · rcases List.mem_cons.mp hw with rfl | hw
        · exact hacc c (List.mem_reverse.mp hc)
        · exact ih [] (by simp) w hw c hc
    next ha =>
      refine ih (a :: acc) ?_ w hw c hc
      intro x hx
      rcases List.mem_cons.mp hx with rfl | hx
      · exact Bool.not_eq_true _ ▸ Bool.of_not_eq_true ha
      · exact hacc x hx

theorem splitOnDot_no_dot : ∀ (l : List Char), ∀ p ∈ splitOnDot l, '.' ∉ p := by
  intro l
  induction l with
  | nil =>
    intro p hp
    rw [splitOnDot] at hp
    rcases List.mem_singleton.mp hp with rfl
    simp
  | cons c rest ih =>
    intro p hp
    rw [splitOnDot] at hp
    split at hp
    · rcases List.mem_cons.mp hp with rfl | hp
      · simp
      · exact ih p hp
    next hc =>
      cases hs : splitOnDot rest with
      | nil =>
        rw [hs] at hp
        rcases List.mem_singleton.mp hp with rfl
        intro h
        exact hc (List.mem_singleton.mp h).symm
      | cons s ss =>
        rw [hs] at hp
        rcases List.mem_cons.mp hp with rfl | hp
        · intro hmem
          rcases List.mem_cons.mp hmem with h | h
          · exact hc h.symm
          · exact ih s (hs ▸ List.mem_cons_self s ss) h
        · exact ih p (hs ▸ List.mem_cons_of_mem s hp)

theorem foldl_preserve {σ β : Type} (f : σ → β → σ) (P : σ → Prop) :
    ∀ (L : List β) (init : σ), P init → (∀ s b, b ∈ L → P s → P (f s b)) →
      P (L.foldl f init) := by
  intro L
  induction L with
  | nil => intro init h _; exact h
  | cons b bs ih =>
    intro init h hstep
    exact ih _ (hstep init b (List.mem_cons_self b bs) h)
      (fun s x hx => hstep s x (List.mem_cons_of_mem b hx))

/-! ### Chunk-state invariants -/

/-- Invariant for C9: every emitted chunk is non-empty and equal to its own
stripped form, and the running buffer is empty or contains a
non-whitespace character. -/
def CleanInv (st : List (List Char) × List Char) : Prop :=
  (∀ c ∈ st.1, c ≠ [] ∧ stripL c = c) ∧
  (st.2 = [] ∨ ∃ ch ∈ st.2, pyIsSpace ch = false)

theorem flush_clean (st : List (List Char) × List Char) (hst : CleanInv st)
    (hne : st.2 ≠ []) : ∀ c ∈ st.1 ++ [stripL st.2], c ≠ [] ∧ stripL c = c := by
  obtain ⟨hchunks, hcur⟩ := hst
  intro c hc
  rcases List.mem_append.mp hc with h | h
  · exact hchunks c h
  · rcases List.mem_singleton.mp h with rfl
    rcases hcur with h0 | ⟨ch, hch, hchws⟩
    · exact absurd h0 hne
    · exact ⟨stripL_ne_nil_of_nonws _ ch hch hchws, stripL_idem _⟩

theorem processWord_clean (maxC : Nat) (st : List (List Char) × List Char)
    (w : List Char) (hst : CleanInv st) (hw : w ≠ [])
    (hnws : ∀ c ∈ w, pyIsSpace c = false) :
    CleanInv (processWord maxC st w) := by
  obtain ⟨c, cs, rfl⟩ : ∃ c cs, w = c :: cs := by
    cases w with
    | nil => exact absurd rfl hw
    | cons c cs => exact ⟨c, cs, rfl⟩
  have hcmem : c ∈ c :: cs := List.mem_cons_self _ _
  rw [processWord]
  split
  · refine ⟨?_, Or.inr ⟨c, List.mem_append.mpr (Or.inl hcmem), hnws c hcmem⟩⟩
    split
    · exact hst.1
    next hne =>
      exact flush_clean st hst (by simpa [List.isEmpty_iff] using hne)
  · exact ⟨hst.1, Or.inr ⟨c, by simp, hnws c hcmem⟩⟩

theorem processSentence_clean (maxC : Nat) (st : List (List Char) × List Char)
    (sen : List Char) (hst : CleanInv st) :
    CleanInv (processSentence maxC st sen) := by
  rw [processSentence]
  by_cases hs : (stripL sen).isEmpty
  · simpa [hs] using hst
  · obtain ⟨c, cs, hcons⟩ : ∃ c cs, stripL sen = c :: cs := by
      cases h : stripL sen with
      | nil => rw [h] at hs; exact absurd rfl hs
      | cons c cs => exact ⟨c, cs, rfl⟩
    have hcw : pyIsSpace c = false := stripL_head_nonws sen c (by rw [hcons]; rfl)
    have hcmem : c ∈ stripL sen := by rw [hcons]; exact List.mem_cons_self _ _
    simp only [hs, if_false, Bool.false_eq_true]
    split
    · split
      next hemp =>
        refine foldl_preserve _ CleanInv _ st hst ?_
        intro s' b hb hP
        exact processWord_clean maxC s' b hP (pyWordsGo_ne_nil _ _ b hb)
          (pyWordsGo_no_ws _ _ (by simp) b hb)
      next hemp =>
        refine ⟨flush_clean st hst (by simpa [List.isEmpty_iff] using hemp), ?_⟩
        exact Or.inr ⟨c, List.mem_append.mpr (Or.inl hcmem), hcw⟩
    · exact ⟨hst.1, Or.inr ⟨c, by simp [hcmem], hcw⟩⟩


/-- C9: for every input text longer than `maxC`, every segment returned by
`chunk_text` is non-empty and carries no leading or trailing whitespace
(each segment equals its own stripped form). -/
theorem chunkText_segments_stripped (text : List Char) (maxC : Nat)
    (h : maxC < text.length) :
    ∀ c ∈ chunkText text maxC, c ≠ [] ∧ stripL c = c := by
  have hInv : CleanInv ((splitOnDot (replaceNlNl (replaceChar '?' '.'
      (replaceChar '!' '.' text)))).foldl (processSentence maxC) ([], [])) := by
    refine foldl_preserve _ CleanInv _ _ ⟨by simp, Or.inl rfl⟩ ?_
    intro s b _ hP
    exact processSentence_clean maxC s b hP
  intro c hc
  simp only [chunkText, if_neg (by omega : ¬text.length ≤ maxC)] at hc
  set st := (splitOnDot (replaceNlNl (replaceChar '?' '.'
      (replaceChar '!' '.' text)))).foldl (processSentence maxC) ([], []) with hstdef
  split at hc
  · exact hInv.1 c hc
  next hne =>
    rcases List.mem_append.mp hc with hmem | hmem
    · exact hInv.1 c hmem
    · rcases List.mem_singleton.mp hmem with rfl
      exact ⟨by simpa [List.isEmpty_iff] using hne, stripL_idem _⟩

/-- C9 witness: a concrete over-long input at limit 10. -/
theorem chunkText_segments_stripped_witness :
    "Hi.".toList ∈ chunkText "Hi. abc def ghi jkl".toList 10 ∧
    ("Hi.".toList ≠ [] ∧ stripL "Hi.".toList = "Hi.".toList) :=
  ⟨by decide, chunkText_segments_stripped "Hi. abc def ghi jkl".toList 10
    (by decide) "Hi.".toList (by decide)⟩

/-- Invariant for C1 (amended): every emitted chunk fits the limit or
contains at most one period; likewise the running buffer. -/
def LenInv (maxC : Nat) (st : List (List Char) × List Char) : Prop :=
  (∀ c ∈ st.1, c.length ≤ maxC ∨ c.count '.' ≤ 1) ∧
  (st.2.length ≤ maxC ∨ st.2.count '.' ≤ 1)

theorem stripL_flush_ok (maxC : Nat) (cur : List Char)
    (h : cur.length ≤ maxC ∨ cur.count '.' ≤ 1) :
    (stripL cur).length ≤ maxC ∨ (stripL cur).count '.' ≤ 1 := by
  rcases h with h | h
  · exact Or.inl (le_trans (stripL_sublist cur).length_le h)
  · exact Or.inr (le_trans ((stripL_sublist cur).count_le '.') h)

theorem processWord_len (maxC : Nat) (st : List (List Char) × List Char)
    (w : List Char) (hst : LenInv maxC st) (hw : '.' ∉ w) :
    LenInv maxC (processWord maxC st w) := by
  obtain ⟨hchunks, hcur⟩ := hst
  rw [processWord]
  split
  · refine ⟨?_, Or.inr ?_⟩
    · split
      · exact hchunks
      · intro c hc
        rcases List.mem_append.mp hc with h | h
        · exact hchunks c h
        · rcases List.mem_singleton.mp h with rfl
          exact stripL_flush_ok maxC st.2 hcur
    · rw [List.count_append]
      have h1 : w.count '.' = 0 := List.count_eq_zero.mpr hw
      have h2 : ([' '] : List Char).count '.' = 0 := by decide
      omega
  next hle =>
    refine ⟨hchunks, Or.inl ?_⟩
    simp only [List.length_append, List.length_singleton]
    omega

theorem processSentence_len (maxC : Nat) (st : List (List Char) × List Char)
    (sen : List Char) (hsen : '.' ∉ sen) (hst : LenInv maxC st) :
    LenInv maxC (processSentence maxC st sen) := by
  have hs' : '.' ∉ stripL sen := fun h => hsen ((stripL_sublist sen).mem h)
  rw [processSentence]
  by_cases hsE : (stripL sen).isEmpty
  · simpa [hsE] using hst
  · simp only [hsE, if_false, Bool.false_eq_true]
    split
    · split
      · refine foldl_preserve _ (LenInv maxC) _ st hst ?_
        intro s' b hb hP
        refine processWord_len maxC s' b hP ?_
        intro hdot
        rcases pyWordsGo_subset _ _ b hb '.' hdot with h | h
        · cases h
        · exact hs' h
      · constructor
        · intro c hc
          rcases List.mem_append.mp hc with h | h
          · exact hst.1 c h
          · rcases List.mem_singleton.mp h with rfl
            exact stripL_flush_ok maxC st.2 hst.2
        · right
          rw [List.count_append]
          have h1 : (stripL sen).count '.' = 0 := List.count_eq_zero.mpr hs'
          have h2 : (". ".toList).count '.' = 1 := by decide
          omega
    · next hgt =>
      refine ⟨hst.1, Or.inl ?_⟩
      have h2 : (". ".toList).length = 2 := by decide
      simp only [List.append_assoc, List.length_append, h2]
      omega

/-- C1 counterexample: at limit 10, the input `"Hi. abc def ghi jkl"`
produces the segment `"abc def ghi jkl."` of length 16 > 10, which is a
four-word sentence, not a single indivisible word. -/
theorem chunkText_oversize_counterexample :
    10 < "Hi. abc def ghi jkl".toList.length ∧
    "abc def ghi jkl.".toList ∈ chunkText "Hi. abc def ghi jkl".toList 10 ∧
    10 < "abc def ghi jkl.".toList.length ∧
    (pyWords "abc def ghi jkl.".toList).length ≠ 1 := by decide

/-- C1 (amended): for input longer than `maxC`, every segment either has
length at most `maxC` or contains at most one period — an oversized
segment is a single sentence emitted unsplit, which may be a single
oversized word but may also be a multi-word sentence that arrived while
the buffer was non-empty. -/
theorem chunkText_len_le_or_single_sentence (text : List Char) (maxC : Nat)
    (h : maxC < text.length) :
    ∀ c ∈ chunkText text maxC, c.length ≤ maxC ∨ c.count '.' ≤ 1 := by
  have hInv : LenInv maxC ((splitOnDot (replaceNlNl (replaceChar '?' '.'
      (replaceChar '!' '.' text)))).foldl (processSentence maxC) ([], [])) := by
    refine foldl_preserve _ (LenInv maxC) _ _ ⟨by simp, Or.inr (by simp)⟩ ?_
    intro s b hb hP
    exact processSentence_len maxC s b (splitOnDot_no_dot _ b hb) hP
  intro c hc
  simp only [chunkText, if_neg (by omega : ¬text.length ≤ maxC)] at hc
  set st := (splitOnDot (replaceNlNl (replaceChar '?' '.'
      (replaceChar '!' '.' text)))).foldl (processSentence maxC) ([], []) with hstdef
  split at hc
  · exact hInv.1 c hc
  · rcases List.mem_append.mp hc with hmem | hmem
    · exact hInv.1 c hmem
    · rcases List.mem_singleton.mp hmem with rfl
      exact stripL_flush_ok maxC st.2 hInv.2

/-- C1 witness: the oversized four-word sentence chunk of the
counterexample input indeed contains exactly one period. -/
theorem chunkText_len_le_or_single_sentence_witness :
    "abc def ghi jkl.".toList ∈ chunkText "Hi. abc def ghi jkl".toList 10 ∧
    ("abc def ghi jkl.".toList.length ≤ 10 ∨ "abc def ghi jkl.".toList.count '.' ≤ 1) :=
  ⟨by decide, chunkText_len_le_or_single_sentence "Hi. abc def ghi jkl".toList 10
    (by decide) "abc def ghi jkl.".toList (by decide)⟩

/-! ### Adjacency relations and utility lemmas for the normaliser -/

/-- No two adjacent space characters (the output of `re.sub(r' +', ' ')`). -/
def noDblSpace (a b : Char) : Bool := !(a = ' ' && b = ' ')

/-- No whitespace immediately before punctuation. -/
def noWsPunct (a b : Char) : Bool := !(pyIsSpace a && isPunct b)

/-- No punctuation immediately followed by a letter. -/
def noPunctLetter (a b : Char) : Bool := !(isPunct a && isAsciiLetter b)

/-- No two adjacent periods. -/
def noDblDot (a b : Char) : Bool := !(a = '.' && b = '.')

theorem headOk_of (R : Char → Char → Bool) (a : Char) (l : List Char)
    (h : ∀ b, R a b = true) : headOk R a l = true := by
  rw [headOk]
  cases l.head? with
  | none => rfl
  | some b => exact h b

theorem headOk_some (R : Char → Char → Bool) (a b : Char) (l : List Char)
    (h : l.head? = some b) : headOk R a l = R a b := by
  rw [headOk, h]

theorem pairwiseAdj_cons_intro (R : Char → Char → Bool) (a : Char) (l : List Char)
    (h1 : headOk R a l = true) (h2 : pairwiseAdj R l = true) :
    pairwiseAdj R (a :: l) = true := by
  rw [pairwiseAdj, h1, h2]; rfl

theorem pairwiseAdj_cons_elim (R : Char → Char → Bool) (a : Char) (l : List Char)
    (h : pairwiseAdj R (a :: l) = true) :
    headOk R a l = true ∧ pairwiseAdj R l = true := by
  rw [pairwiseAdj] at h
  exact Bool.and_eq_true_iff.mp h

theorem pairwiseAdj_pair (R : Char → Char → Bool) (a b : Char) (l : List Char)
    (h : pairwiseAdj R (a :: b :: l) = true) : R a b = true := by
  exact (pairwiseAdj_cons_elim R a (b :: l) h).1

theorem pairwiseAdj_append_elim_right (R : Char → Char → Bool) :
    ∀ (l1 l2 : List Char), pairwiseAdj R (l1 ++ l2) = true → pairwiseAdj R l2 = true := by
  intro l1
  induction l1 with
  | nil => intro l2 h; exact h
  | cons a l1 ih =>
    intro l2 h
    exact ih l2 (pairwiseAdj_cons_elim R a _ h).2

theorem pairwiseAdj_append_elim_left (R : Char → Char → Bool) :
    ∀ (l1 l2 : List Char), pairwiseAdj R (l1 ++ l2) = true → pairwiseAdj R l1 = true := by
  intro l1
  induction l1 with
  | nil => intro _ _; rfl
  | cons a l1 ih =>
    intro l2 h
    obtain ⟨h1, h2⟩ := pairwiseAdj_cons_elim R a _ h
    refine pairwiseAdj_cons_intro R a l1 ?_ (ih l2 h2)
    cases l1 with
    | nil => rfl
    | cons b l1' => exact h1

theorem pairwiseAdj_append_pair (R : Char → Char → Bool) :
    ∀ (l1 : List Char) (x c : Char) (l2 : List Char),
      pairwiseAdj R (l1 ++ x :: c :: l2) = true → R x c = true := by
  intro l1
  induction l1 with
  | nil => intro x c l2 h; exact pairwiseAdj_pair R x c l2 h
  | cons a l1 ih =>
    intro x c l2 h
    exact ih x c l2 (pairwiseAdj_cons_elim R a _ h).2

theorem pairwiseAdj_append_cons_intro (R : Char → Char → Bool) :
    ∀ (l1 : List Char) (x : Char) (l2 : List Char),
      pairwiseAdj R (l1 ++ [x]) = true → pairwiseAdj R (x :: l2) = true →
      pairwiseAdj R (l1 ++ x :: l2) = true := by
  intro l1
  induction l1 with
  | nil => intro x l2 _ h2; exact h2
  | cons a l1 ih =>
    intro x l2 h1 h2
    obtain ⟨hh, ht⟩ := pairwiseAdj_cons_elim R a _ h1
    refine pairwiseAdj_cons_intro R a _ ?_ (ih x l2 ht h2)
    cases l1 with
    | nil => exact hh
    | cons b l1' => exact hh

/-! ### Character-class facts -/

theorem punct_cases (c : Char) (h : isPunct c = true) :
    c = '.' ∨ c = ',' ∨ c = '!' ∨ c = '?' ∨ c = ';' ∨ c = ':' := by
  rw [isPunct] at h
  simpa [or_assoc] using h

theorem ws_cases (c : Char) (h : pyIsSpace c = true) :
    c = ' ' ∨ c = '\t' ∨ c = '\n' ∨ c = '\r' ∨ c = '\x0b' ∨ c = '\x0c' := by
  rw [pyIsSpace] at h
  simpa [or_assoc] using h

theorem punct_not_ws (c : Char) (h : isPunct c = true) : pyIsSpace c = false := by
  rcases punct_cases c h with rfl | rfl | rfl | rfl | rfl | rfl <;> decide

theorem ws_not_punct (c : Char) (h : pyIsSpace c = true) : isPunct c = false := by
  rcases ws_cases c h with rfl | rfl | rfl | rfl | rfl | rfl <;> decide

theorem ws_not_letter (c : Char) (h : pyIsSpace c = true) : isAsciiLetter c = false := by
  rcases ws_cases c h with rfl | rfl | rfl | rfl | rfl | rfl <;> decide

theorem punct_not_letter (c : Char) (h : isPunct c = true) : isAsciiLetter c = false := by
  rcases punct_cases c h with rfl | rfl | rfl | rfl | rfl | rfl <;> decide

theorem punct_ne_space (c : Char) (h : isPunct c = true) : c ≠ ' ' := by
  intro e; subst e; exact absurd h (by decide)

theorem letter_ne_space (c : Char) (h : isAsciiLetter c = true) : c ≠ ' ' := by
  intro e; subst e; exact absurd h (by decide)

theorem letter_not_punct (c : Char) (h : isAsciiLetter c = true) : isPunct c = false := by
  cases hq : isPunct c with
  | false => rfl
  | true =>
    rw [punct_not_letter c hq] at h
    cases h

theorem nonws_ne_space (c : Char) (h : pyIsSpace c = false) : c ≠ ' ' := by
  intro e; subst e; exact absurd h (by decide)

theorem noDblSpace_of_left (a b : Char) (h : a ≠ ' ') : noDblSpace a b = true := by
  rw [noDblSpace]; simp [h]

theorem noDblSpace_of_right (a b : Char) (h : b ≠ ' ') : noDblSpace a b = true := by
  rw [noDblSpace]; simp [h]

theorem noDblSpace_right (a b : Char) (ha : a = ' ') (h : noDblSpace a b = true) :
    b ≠ ' ' := by
  subst ha
  rw [noDblSpace] at h
  simpa using h

theorem noWsPunct_of_left (a b : Char) (h : pyIsSpace a = false) : noWsPunct a b = true := by
  rw [noWsPunct, h]; rfl

theorem noWsPunct_of_right (a b : Char) (h : isPunct b = false) : noWsPunct a b = true := by
  rw [noWsPunct, h]; simp

theorem noWsPunct_not_both (a b : Char) (h : noWsPunct a b = true)
    (hws : pyIsSpace a = true) : isPunct b = false := by
  rw [noWsPunct, hws] at h
  simpa using h

theorem noPunctLetter_of_left (a b : Char) (h : isPunct a = false) :
    noPunctLetter a b = true := by
  rw [noPunctLetter, h]; rfl

theorem noPunctLetter_of_right (a b : Char) (h : isAsciiLetter b = false) :
    noPunctLetter a b = true := by
  rw [noPunctLetter, h]; simp

theorem noPunctLetter_not_both (a b : Char) (h : noPunctLetter a b = true)
    (hp : isPunct a = true) : isAsciiLetter b = false := by
  rw [noPunctLetter, hp] at h
  simpa using h

theorem noDblDot_of_left (a b : Char) (h : a ≠ '.') : noDblDot a b = true := by
  rw [noDblDot]; simp [h]

theorem noDblDot_of_right (a b : Char) (h : b ≠ '.') : noDblDot a b = true := by
  rw [noDblDot]; simp [h]

theorem noDblDot_right (a b : Char) (ha : a = '.') (h : noDblDot a b = true) :
    b ≠ '.' := by
  subst ha
  rw [noDblDot] at h
  simpa using h

/-! ### Identity of the normaliser passes on already-normalised text -/

theorem collapseSpacesAux_id : ∀ (l : List Char) (b : Bool),
    pairwiseAdj noDblSpace l = true →
    (b = true → ∀ c, l.head? = some c → c ≠ ' ') →
    collapseSpacesAux b l = l := by
  intro l
  induction l with
  | nil => intro b _ _; rfl
  | cons c rest ih =>
    intro b hpw hb
    obtain ⟨hhead, htail⟩ := pairwiseAdj_cons_elim _ _ _ hpw
    rw [collapseSpacesAux]
    by_cases hc : c = ' '
    · subst hc
      cases b with
      | true => exact absurd rfl (hb rfl ' ' rfl)
      | false =>
        have hrest : collapseSpacesAux true rest = rest := by
          refine ih true htail ?_
          intro _ x hx e
          subst e
          have hR : noDblSpace ' ' ' ' = true := by
            rw [← headOk_some noDblSpace ' ' ' ' rest hx]
            exact hhead
          exact noDblSpace_right ' ' ' ' rfl hR rfl
        simp [hrest]
    · have hrest : collapseSpacesAux false rest = rest := by
        refine ih false htail ?_
        intro h; cases h
      simp [hc, hrest]

theorem singleNlGo_id : ∀ (l : List Char) (prev : Option Char), '\n' ∉ l →
    singleNlGo prev l = l := by
  intro l
  induction l with
  | nil => intro _ _; rfl
  | cons c rest ih =>
    intro prev h
    have hc : ¬c = '\n' := fun e => h (e ▸ List.mem_cons_self c rest)
    have hrest : '\n' ∉ rest := fun hm => h (List.mem_cons_of_mem c hm)
    rw [singleNlGo, if_neg hc, ih (some c) hrest]

theorem paraGo_id : ∀ (l : List Char), '\n' ∉ l → paraGo false l = l := by
  intro l
  induction l with
  | nil => intro _; rfl
  | cons c rest ih =>
    intro h
    have hc : ¬c = '\n' := fun e => h (e ▸ List.mem_cons_self c rest)
    have hrest : '\n' ∉ rest := fun hm => h (List.mem_cons_of_mem c hm)
    cases rest with
    | nil => simp [paraGo]
    | cons d rest2 =>
      rw [paraGo]
      simp only [Bool.false_eq_true, if_false]
      rw [if_neg (by simp [hc]), ih hrest]

theorem nlJoinGo_id : ∀ (l : List Char), '\n' ∉ l → nlJoinGo l = l := by
  intro l
  induction l with
  | nil => intro _; rfl
  | cons a rest ih =>
    intro h
    have hrest : '\n' ∉ rest := fun hm => h (List.mem_cons_of_mem a hm)
    cases rest with
    | nil => rfl
    | cons b rest2 =>
      have hb : ¬b = '\n' := fun e => hrest (e ▸ List.mem_cons_self b rest2)
      cases rest2 with
      | nil => rfl
      | cons c rest3 =>
        rw [nlJoinGo, if_neg (by simp [hb]), ih hrest]

theorem hyphGo_id : ∀ (l : List Char), '\n' ∉ l →
    hyphGo .normal l = l ∧
    ∀ buf, hyphGo (.pending buf) l = '-' :: buf.reverse ++ l := by
  intro l
  induction l with
  | nil =>
    intro _
    exact ⟨rfl, fun buf => by rw [hyphGo]; simp⟩
  | cons c rest ih =>
    intro h
    have hc : ¬c = '\n' := fun e => h (e ▸ List.mem_cons_self c rest)
    have hrest : '\n' ∉ rest := fun hm => h (List.mem_cons_of_mem c hm)
    obtain ⟨ihn, ihp⟩ := ih hrest
    constructor
    · rw [hyphGo]
      by_cases hdash : c = '-'
      · subst hdash
        rw [if_pos rfl, ihp []]
        rfl
      · rw [if_neg hdash, ihn]
    · intro buf
      rw [hyphGo, if_neg hc]
      by_cases hws : pyIsSpace c = true
      · rw [if_pos hws, ihp (c :: buf)]
        simp
      · rw [if_neg hws]
        by_cases hdash : c = '-'
        · subst hdash
          rw [if_pos rfl, ihp []]
          simp
        · rw [if_neg hdash, ihn]

theorem mapNl_id : ∀ (l : List Char), '\n' ∉ l →
    (l.map fun c => if c = '\n' then ' ' else c) = l := by
  intro l
  induction l with
  | nil => intro _; rfl
  | cons c rest ih =>
    intro h
    have hc : ¬c = '\n' := fun e => h (e ▸ List.mem_cons_self c rest)
    have hrest : '\n' ∉ rest := fun hm => h (List.mem_cons_of_mem c hm)
    simp only [List.map_cons, if_neg hc, ih hrest]

theorem wsPunctGo_id_both : ∀ (l : List Char),
    (pairwiseAdj noWsPunct l = true → wsPunctGo none l = l) ∧
    (∀ b, b ≠ [] → (∀ c ∈ b, pyIsSpace c = true) →
      pairwiseAdj noWsPunct (b.reverse ++ l) = true →
      wsPunctGo (some b) l = b.reverse ++ l) := by
  intro l
  induction l with
  | nil =>
    refine ⟨fun _ => rfl, fun b _ _ _ => ?_⟩
    rw [wsPunctGo]; simp
  | cons c rest ih =>
    constructor
    · intro hpw
      rw [wsPunctGo]
      by_cases hws : pyIsSpace c = true
      · rw [if_pos hws, ih.2 [c] (by simp) (by simpa using hws) (by simpa using hpw)]
        simp
      · rw [if_neg hws, ih.1 (pairwiseAdj_cons_elim _ _ _ hpw).2]
    · intro b hbne hbws hpw
      rw [wsPunctGo]
      by_cases hws : pyIsSpace c = true
      · rw [if_pos hws]
        have hrec := ih.2 (c :: b) (by simp)
          (by
            intro x hx
            rcases List.mem_cons.mp hx with rfl | hx
            · exact hws
            · exact hbws x hx)
          (by
            rw [List.reverse_cons, List.append_assoc]
            simpa using hpw)
        rw [hrec, List.reverse_cons, List.append_assoc]
        simp
      · rw [if_neg hws]
        by_cases hpunct : isPunct c = true
        · exfalso
          obtain ⟨x, xs, rfl⟩ : ∃ x xs, b = x :: xs := by
            cases b with
            | nil => exact absurd rfl hbne
            | cons x xs => exact ⟨x, xs, rfl⟩
          have hxws : pyIsSpace x = true := hbws x (List.mem_cons_self _ _)
          have hsplit : (x :: xs).reverse ++ c :: rest = xs.reverse ++ x :: c :: rest := by
            rw [List.reverse_cons, List.append_assoc]; rfl
          have hpair : noWsPunct x c = true :=
            pairwiseAdj_append_pair noWsPunct xs.reverse x c rest (hsplit ▸ hpw)
          rw [noWsPunct_not_both x c hpair hxws] at hpunct
          cases hpunct
        · rw [if_neg hpunct]
          have hrest : pairwiseAdj noWsPunct rest = true := by
            have h2 : pairwiseAdj noWsPunct ((b.reverse ++ [c]) ++ rest) = true := by
              rw [List.append_assoc]; simpa using hpw
            exact pairwiseAdj_append_elim_right _ _ _ h2
          rw [ih.1 hrest]

theorem punctWsGo_id_both : ∀ (l : List Char),
    (pairwiseAdj noWsPunct l = true → punctWsGo none l = l) ∧
    (∀ p b, (∀ c ∈ b, pyIsSpace c = true) →
      pairwiseAdj noWsPunct (b.reverse ++ l) = true →
      punctWsGo (some (p, b)) l = p :: b.reverse ++ l) := by
  intro l
  induction l with
  | nil =>
    refine ⟨fun _ => rfl, fun p b _ _ => ?_⟩
    rw [punctWsGo]; simp
  | cons c rest ih =>
    constructor
    · intro hpw
      rw [punctWsGo]
      by_cases hpunct : isPunct c = true
      · rw [if_pos hpunct,
          ih.2 c [] (by simp) (by simpa using (pairwiseAdj_cons_elim _ _ _ hpw).2)]
        simp
      · rw [if_neg hpunct, ih.1 (pairwiseAdj_cons_elim _ _ _ hpw).2]
    · intro p b hbws hpw
      rw [punctWsGo]
      by_cases hpunct : isPunct c = true
      · rw [if_pos hpunct]
        cases b with
        | nil =>
          rw [ih.1 (pairwiseAdj_cons_elim _ _ _ (by simpa using hpw)).2]
          simp
        | cons x xs =>
          exfalso
          have hxws : pyIsSpace x = true := hbws x (List.mem_cons_self _ _)
          have hsplit : (x :: xs).reverse ++ c :: rest = xs.reverse ++ x :: c :: rest := by
            rw [List.reverse_cons, List.append_assoc]; rfl
          have hpair : noWsPunct x c = true :=
            pairwiseAdj_append_pair noWsPunct xs.reverse x c rest (hsplit ▸ hpw)
          rw [noWsPunct_not_both x c hpair hxws] at hpunct
          cases hpunct
      · rw [if_neg hpunct]
        by_cases hws : pyIsSpace c = true
        · rw [if_pos hws]
          have hrec := ih.2 p (c :: b)
            (by
              intro x hx
              rcases List.mem_cons.mp hx with rfl | hx
              · exact hws
              · exact hbws x hx)
            (by
              rw [List.reverse_cons, List.append_assoc]
              simpa using hpw)
          rw [hrec]
          simp [List.reverse_cons]
        · rw [if_neg hws]
          have hrest : pairwiseAdj noWsPunct rest = true := by
            have h2 : pairwiseAdj noWsPunct ((b.reverse ++ [c]) ++ rest) = true := by
              rw [List.append_assoc]; simpa using hpw
            exact pairwiseAdj_append_elim_right _ _ _ h2
          rw [ih.1 hrest]

theorem punctLetterGo_id : ∀ (l : List Char), pairwiseAdj noPunctLetter l = true →
    punctLetterGo l = l := by
  intro l
  induction l with
  | nil => intro _; rfl
  | cons c rest ih =>
    intro hpw
    cases rest with
    | nil => rfl
    | cons d rest2 =>
      have hpair : noPunctLetter c d = true := pairwiseAdj_pair _ _ _ _ hpw
      rw [punctLetterGo, if_neg ?_, ih (pairwiseAdj_cons_elim _ _ _ hpw).2]
      intro hcon
      obtain ⟨h1, h2⟩ : isPunct c = true ∧ isAsciiLetter d = true := by simpa using hcon
      rw [noPunctLetter_not_both c d hpair h1] at h2
      cases h2

theorem dropWhile_ws_id (l : List Char)
    (hhead : ∀ c, l.head? = some c → pyIsSpace c = false) :
    l.dropWhile pyIsSpace = l := by
  cases l with
  | nil => rfl
  | cons c rest => rw [List.dropWhile_cons, if_neg (by simp [hhead c rfl])]

theorem stripR_id : ∀ (l : List Char),
    (∀ c, l.getLast? = some c → pyIsSpace c = false) → stripR l = l := by
  intro l
  induction l with
  | nil => intro _; rfl
  | cons c rest ih =>
    intro hlast
    cases rest with
    | nil =>
      rw [stripR]
      rw [if_neg (by simp [hlast c (by rfl)])]
      rfl
    | cons d rest2 =>
      have hr : stripR (d :: rest2) = d :: rest2 := by
        refine ih ?_
        intro x hx
        exact hlast x (by rw [List.getLast?_cons_cons]; exact hx)
      rw [stripR, hr]
      simp

theorem stripL_id (l : List Char)
    (hhead : ∀ c, l.head? = some c → pyIsSpace c = false)
    (hlast : ∀ c, l.getLast? = some c → pyIsSpace c = false) :
    stripL l = l := by
  rw [stripL, dropWhile_ws_id l hhead, stripR_id l hlast]

theorem dotsGo_id : ∀ (l : List Char), pairwiseAdj noDblDot l = true →
    dotsGo false l = l := by
  intro l
  induction l with
  | nil => intro _; rfl
  | cons c rest ih =>
    intro hpw
    cases rest with
    | nil => simp [dotsGo]
    | cons d rest2 =>
      have hpair : noDblDot c d = true := pairwiseAdj_pair _ _ _ _ hpw
      rw [dotsGo]
      simp only [Bool.false_eq_true, if_false]
      rw [if_neg ?_, ih (pairwiseAdj_cons_elim _ _ _ hpw).2]
      intro hcon
      obtain ⟨h1, h2⟩ : c = '.' ∧ d = '.' := by simpa using hcon
      exact noDblDot_right c d h1 hpair h2

theorem ensureTerminal_id (l : List Char)
    (h : l.getLast? = some '.' ∨ l.getLast? = some '!' ∨ l.getLast? = some '?') :
    ensureTerminal l = l := by
  rw [ensureTerminal, if_neg]
  rintro ⟨_, hno⟩
  exact hno h

theorem bool_eq_false (b : Bool) (h : ¬b = true) : b = false := by
  cases b with
  | false => rfl
  | true => exact absurd rfl h

/-- The shape of `clean_text_for_tts` output: either empty, or free of
newlines, double spaces, whitespace-before-punctuation,
punctuation-followed-by-letter and double periods, starting with a
non-whitespace character and ending in terminal punctuation. -/
def GoodOut (l : List Char) : Prop :=
  l = [] ∨
  ('\n' ∉ l ∧
   pairwiseAdj noDblSpace l = true ∧
   pairwiseAdj noWsPunct l = true ∧
   pairwiseAdj noPunctLetter l = true ∧
   pairwiseAdj noDblDot l = true ∧
   (∀ c, l.head? = some c → pyIsSpace c = false) ∧
   (l.getLast? = some '.' ∨ l.getLast? = some '!' ∨ l.getLast? = some '?'))

/-- On text already in output shape, every pass of `clean_text_for_tts`
is the identity. -/
theorem cleanTextForTts_id_of_good (l : List Char) (h : GoodOut l) :
    cleanTextForTts l = l := by
  rcases h with rfl | ⟨hNl, hDbl, hWp, hPl, hDd, hHead, hLast⟩
  · rfl
  · have hne : l ≠ [] := by
      rintro rfl
      rcases hLast with h | h | h <;> cases h
    have hlastws : ∀ c, l.getLast? = some c → pyIsSpace c = false := by
      intro c hc
      rcases hLast with h | h | h <;>
        (rw [hc] at h; injection h with h; subst h; decide)
    have e1 : collapseSpacesAux false l = l :=
      collapseSpacesAux_id l false hDbl (fun hf => absurd hf (by decide))
    have e2 : singleNlGo none l = l := singleNlGo_id l none hNl
    have e3 : paraGo false l = l := paraGo_id l hNl
    have e4 : nlJoinGo l = l := nlJoinGo_id l hNl
    have e5 : hyphGo .normal l = l := (hyphGo_id l hNl).1
    have e6 : (l.map fun c => if c = '\n' then ' ' else c) = l := mapNl_id l hNl
    have e8 : wsPunctGo none l = l := (wsPunctGo_id_both l).1 hWp
    have e9 : punctWsGo none l = l := (punctWsGo_id_both l).1 hWp
    have e10 : punctLetterGo l = l := punctLetterGo_id l hPl
    have e11 : stripL l = l := stripL_id l hHead hlastws
    have e12 : dotsGo false l = l := dotsGo_id l hDd
    have e13 : ensureTerminal l = l := ensureTerminal_id l hLast
    rw [cleanTextForTts, if_neg (by simp [List.isEmpty_iff, hne])]
    simp only [e1, e2, e3, e4, e5, e6, e8, e9, e10, e11, e12, e13]

/-! ### Forward properties: the passes establish the output shape -/

theorem pairwiseAdj_of_mem (R : Char → Char → Bool) : ∀ (l : List Char),
    (∀ a b, a ∈ l → b ∈ l → R a b = true) → pairwiseAdj R l = true := by
  intro l
  induction l with
  | nil => intro _; rfl
  | cons a rest ih =>
    intro h
    refine pairwiseAdj_cons_intro R a rest ?_ (ih ?_)
    · cases hh : rest.head? with
      | none => rw [headOk, hh]
      | some b =>
        rw [headOk, hh]
        exact h a b (List.mem_cons_self _ _)
          (List.mem_cons_of_mem _ (List.mem_of_mem_head? hh))
    · intro x y hx hy
      exact h x y (List.mem_cons_of_mem _ hx) (List.mem_cons_of_mem _ hy)

theorem collapseSpacesAux_subset : ∀ (l : List Char) (b : Bool) (c : Char),
    c ∈ collapseSpacesAux b l → c ∈ l := by
  intro l
  induction l with
  | nil => intro b c h; cases h
  | cons x rest ih =>
    intro b c h
    rw [collapseSpacesAux] at h
    split at h
    · split at h
      · exact List.mem_cons_of_mem _ (ih _ _ h)
      · rcases List.mem_cons.mp h with rfl | h
        · next hx _ => exact hx ▸ List.mem_cons_self _ _
        · exact List.mem_cons_of_mem _ (ih _ _ h)
    · rcases List.mem_cons.mp h with rfl | h
      · exact List.mem_cons_self _ _
      · exact List.mem_cons_of_mem _ (ih _ _ h)

theorem collapseSpacesAux_good : ∀ (l : List Char),
    (∀ c, (collapseSpacesAux true l).head? = some c → c ≠ ' ') ∧
    ∀ b, pairwiseAdj noDblSpace (collapseSpacesAux b l) = true := by
  intro l
  induction l with
  | nil => exact ⟨(fun c h => by cases h), (fun b => rfl)⟩
  | cons x rest ih =>
    constructor
    · intro c h
      rw [collapseSpacesAux] at h
      split at h
      · next hx =>
        rw [if_pos rfl] at h
        exact ih.1 c h
      · next hx =>
        rw [List.head?_cons] at h
        injection h with h
        subst h
        exact hx
    · intro b
      rw [collapseSpacesAux]
      by_cases hx : x = ' '
      · subst hx
        rw [if_pos rfl]
        cases b with
        | true => exact ih.2 true
        | false =>
          simp only [Bool.false_eq_true, if_false]
          refine pairwiseAdj_cons_intro _ _ _ ?_ (ih.2 true)
          cases hh : (collapseSpacesAux true rest).head? with
          | none => rw [headOk, hh]
          | some y =>
            rw [headOk, hh]
            exact noDblSpace_of_right _ _ (ih.1 y hh)
      · rw [if_neg hx]
        refine pairwiseAdj_cons_intro _ _ _ ?_ (ih.2 false)
        exact headOk_of _ _ _ (fun y => noDblSpace_of_left _ _ hx)

theorem wsPunctGo_noNl : ∀ (l : List Char) (st : Option (List Char)),
    '\n' ∉ l → (∀ b, st = some b → '\n' ∉ b) → '\n' ∉ wsPunctGo st l := by
  intro l
  induction l with
  | nil =>
    intro st _ hbuf h
    cases st with
    | none => cases h
    | some b =>
      rw [wsPunctGo] at h
      exact hbuf b rfl (List.mem_reverse.mp h)
  | cons c rest ih =>
    intro st hnl hbuf h
    have hc : ¬c = '\n' := fun e => hnl (e ▸ List.mem_cons_self c rest)
    have hrest : '\n' ∉ rest := fun hm => hnl (List.mem_cons_of_mem c hm)
    cases st with
    | none =>
      rw [wsPunctGo] at h
      split at h
      · refine ih (some [c]) hrest ?_ h
        intro b hb
        injection hb with hb
        subst hb
        intro hm
        exact hc (List.mem_singleton.mp hm).symm
      · rcases List.mem_cons.mp h with he | h
        · exact hc he.symm
        · exact ih none hrest (fun b hb => by cases hb) h
    | some bf =>
      rw [wsPunctGo] at h
      split at h
      · refine ih (some (c :: bf)) hrest ?_ h
        intro b hb
        injection hb with hb
        subst hb
        intro hm
        rcases List.mem_cons.mp hm with he | hm
        · exact hc he.symm
        · exact hbuf bf rfl hm
      · split at h
        · rcases List.mem_cons.mp h with he | h
          · exact hc he.symm
          · exact ih none hrest (fun b hb => by cases hb) h
        · rcases List.mem_append.mp h with hm | hm
          · exact hbuf bf rfl (List.mem_reverse.mp hm)
          · rcases List.mem_cons.mp hm with he | hm
            · exact hc he.symm
            · exact ih none hrest (fun b hb => by cases hb) hm

theorem wsPunctGo_noDbl : ∀ (l : List Char) (st : Option (List Char)),
    pairwiseAdj noDblSpace ((st.getD []).reverse ++ l) = true →
    pairwiseAdj noDblSpace (wsPunctGo st l) = true := by
  intro l
  induction l with
  | nil =>
    intro st h
    cases st with
    | none => rfl
    | some b =>
      rw [wsPunctGo]
      simpa using h
  | cons c rest ih =>
    intro st h
    cases st with
    | none =>
      rw [wsPunctGo]
      split
      · exact ih (some [c]) (by simpa using h)
      · next hws =>
        refine pairwiseAdj_cons_intro _ _ _ ?_ (ih none (pairwiseAdj_cons_elim _ _ _ h).2)
        exact headOk_of _ _ _ fun y =>
          noDblSpace_of_left _ _ (nonws_ne_space c (bool_eq_false _ hws))
    | some bf =>
      have hassoc : (bf.reverse ++ [c]) ++ rest = bf.reverse ++ c :: rest := by
        rw [List.append_assoc]; rfl
      rw [wsPunctGo]
      split
      · refine ih (some (c :: bf)) ?_
        simp only [Option.getD, List.reverse_cons]
        rw [List.append_assoc]
        simpa using h
      · next hws =>
        have hcns : c ≠ ' ' := nonws_ne_space c (bool_eq_false _ hws)
        have hrest : pairwiseAdj noDblSpace rest = true := by
          refine pairwiseAdj_append_elim_right _ (bf.reverse ++ [c]) rest ?_
          rw [hassoc]
          simpa using h
        split
        · refine pairwiseAdj_cons_intro _ _ _ ?_ (ih none hrest)
          exact headOk_of _ _ _ fun y => noDblSpace_of_left _ _ hcns
        · refine pairwiseAdj_append_cons_intro _ bf.reverse c _ ?_ ?_
          · refine pairwiseAdj_append_elim_left _ (bf.reverse ++ [c]) rest ?_
            rw [hassoc]
            simpa using h
          · refine pairwiseAdj_cons_intro _ _ _ ?_ (ih none hrest)
            exact headOk_of _ _ _ fun y => noDblSpace_of_left _ _ hcns

theorem wsPunctGo_est : ∀ (l : List Char) (st : Option (List Char)),
    (∀ b, st = some b → ∀ c ∈ b, pyIsSpace c = true) →
    pairwiseAdj noWsPunct (wsPunctGo st l) = true := by
  intro l
  induction l with
  | nil =>
    intro st hbuf
    cases st with
    | none => rfl
    | some b =>
      rw [wsPunctGo]
      refine pairwiseAdj_of_mem _ _ ?_
      intro x y _ hy
      exact noWsPunct_of_right _ _
        (ws_not_punct y (hbuf b rfl y (List.mem_reverse.mp hy)))
  | cons c rest ih =>
    intro st hbuf
    cases st with
    | none =>
      rw [wsPunctGo]
      split
      · next hws =>
        refine ih (some [c]) ?_
        intro b hb
        injection hb with hb
        subst hb
        intro x hx
        rcases List.mem_singleton.mp hx with rfl
        exact hws
      · next hws =>
        refine pairwiseAdj_cons_intro _ _ _ ?_ (ih none (fun b hb => by cases hb))
        exact headOk_of _ _ _ fun y => noWsPunct_of_left _ _ (bool_eq_false _ hws)
    | some bf =>
      have hbws : ∀ x ∈ bf, pyIsSpace x = true := hbuf bf rfl
      rw [wsPunctGo]
      split
      · next hws =>
        refine ih (some (c :: bf)) ?_
        intro b hb
        injection hb with hb
        subst hb
        intro x hx
        rcases List.mem_cons.mp hx with rfl | hx
        · exact hws
        · exact hbws x hx
      · next hws =>
        split
        · next hpunct =>
          refine pairwiseAdj_cons_intro _ _ _ ?_ (ih none (fun b hb => by cases hb))
          exact headOk_of _ _ _ fun y => noWsPunct_of_left _ _ (punct_not_ws c hpunct)
        · next hpunct =>
          refine pairwiseAdj_append_cons_intro _ bf.reverse c _ ?_ ?_
          · refine pairwiseAdj_of_mem _ _ ?_
            intro x y _ hy
            rcases List.mem_append.mp hy with hy | hy
            · exact noWsPunct_of_right _ _
                (ws_not_punct y (hbws y (List.mem_reverse.mp hy)))
            · rcases List.mem_singleton.mp hy with rfl
              exact noWsPunct_of_right _ _ (bool_eq_false _ hpunct)
          · refine pairwiseAdj_cons_intro _ _ _ ?_ (ih none (fun b hb => by cases hb))
            exact headOk_of _ _ _ fun y => noWsPunct_of_left _ _ (bool_eq_false _ hws)

theorem punctLetterGo_head : ∀ (l : List Char), (punctLetterGo l).head? = l.head?
  | [] => rfl
  | [_] => rfl
  | _ :: _ :: _ => by
    rw [punctLetterGo]
    split <;> rfl

theorem punctLetterGo_subset : ∀ (l : List Char) (c : Char),
    c ∈ punctLetterGo l → c ∈ l ∨ c = ' '
  | [], c, h => absurd h (List.not_mem_nil c)
  | [_], c, h => Or.inl h
  | a :: d :: rest, c, h => by
    rw [punctLetterGo] at h
    split at h
    · rcases List.mem_cons.mp h with rfl | h
      · exact Or.inl (List.mem_cons_self _ _)
      · rcases List.mem_cons.mp h with rfl | h
        · exact Or.inr rfl
        · rcases List.mem_cons.mp h with rfl | h
          · exact Or.inl (List.mem_cons_of_mem _ (List.mem_cons_self _ _))
          · rcases punctLetterGo_subset rest c h with h | h
            · exact Or.inl (List.mem_cons_of_mem _ (List.mem_cons_of_mem _ h))
            · exact Or.inr h
    · rcases List.mem_cons.mp h with rfl | h
      · exact Or.inl (List.mem_cons_self _ _)
      · rcases punctLetterGo_subset (d :: rest) c h with h | h
        · exact Or.inl (List.mem_cons_of_mem _ h)
        · exact Or.inr h

theorem punctLetterGo_pairwise (R : Char → Char → Bool)
    (hpl : ∀ c d, isPunct c = true → isAsciiLetter d = true →
      R c ' ' = true ∧ R ' ' d = true) :
    ∀ (l : List Char), pairwiseAdj R l = true → pairwiseAdj R (punctLetterGo l) = true
  | [], _ => rfl
  | [_], _ => rfl
  | c :: d :: rest, h => by
    obtain ⟨hhd, htl⟩ := pairwiseAdj_cons_elim R c _ h
    obtain ⟨hhd2, htl2⟩ := pairwiseAdj_cons_elim R d _ htl
    rw [punctLetterGo]
    split
    · next hcond =>
      obtain ⟨hp, hl⟩ : isPunct c = true ∧ isAsciiLetter d = true := by simpa using hcond
      obtain ⟨r1, r2⟩ := hpl c d hp hl
      refine pairwiseAdj_cons_intro _ _ _ r1 ?_
      refine pairwiseAdj_cons_intro _ _ _ r2 ?_
      refine pairwiseAdj_cons_intro _ _ _ ?_ (punctLetterGo_pairwise R hpl rest htl2)
      cases hh : (punctLetterGo rest).head? with
      | none => rw [headOk, hh]
      | some y =>
        rw [headOk, hh]
        have hy : rest.head? = some y := (punctLetterGo_head rest) ▸ hh
        rw [headOk_some R d y rest hy] at hhd2
        exact hhd2
    · refine pairwiseAdj_cons_intro _ _ _ ?_
        (punctLetterGo_pairwise R hpl (d :: rest) htl)
      cases hh : (punctLetterGo (d :: rest)).head? with
      | none => rw [headOk, hh]
      | some y =>
        rw [headOk, hh]
        have hy : (d :: rest).head? = some y := (punctLetterGo_head (d :: rest)) ▸ hh
        rw [List.head?_cons] at hy
        injection hy with hy
        subst hy
        exact hhd

theorem punctLetterGo_est : ∀ (l : List Char),
    pairwiseAdj noPunctLetter (punctLetterGo l) = true
  | [] => rfl
  | [_] => rfl
  | c :: d :: rest => by
    rw [punctLetterGo]
    split
    · next hcond =>
      obtain ⟨hp, hl⟩ : isPunct c = true ∧ isAsciiLetter d = true := by simpa using hcond
      refine pairwiseAdj_cons_intro _ _ _
        (noPunctLetter_of_right c ' ' (by decide)) ?_
      refine pairwiseAdj_cons_intro _ _ _
        (noPunctLetter_of_left ' ' d (by decide)) ?_
      refine pairwiseAdj_cons_intro _ _ _ ?_ (punctLetterGo_est rest)
      exact headOk_of _ _ _ fun y => noPunctLetter_of_left d y (letter_not_punct d hl)
    · next hcond =>
      refine pairwiseAdj_cons_intro _ _ _ ?_ (punctLetterGo_est (d :: rest))
      cases hh : (punctLetterGo (d :: rest)).head? with
      | none => rw [headOk, hh]
      | some y =>
        rw [headOk, hh]
        have hy : (d :: rest).head? = some y := (punctLetterGo_head (d :: rest)) ▸ hh
        rw [List.head?_cons] at hy
        injection hy with hy
        subst hy
        by_cases hp : isPunct c = true
        · refine noPunctLetter_of_right c d ?_
          cases hl : isAsciiLetter d with
          | false => rfl
          | true => exact absurd (by rw [hp, hl]; rfl) hcond
        · exact noPunctLetter_of_left c d (bool_eq_false _ hp)

theorem stripR_append_exists : ∀ (l : List Char), ∃ t, l = stripR l ++ t := by
  intro l
  induction l with
  | nil => exact ⟨[], rfl⟩
  | cons c rest ih =>
    rw [stripR]
    split
    · exact ⟨c :: rest, rfl⟩
    · obtain ⟨t, ht⟩ := ih
      exact ⟨t, by rw [List.cons_append, ← ht]⟩

theorem pairwiseAdj_stripR (R : Char → Char → Bool) (l : List Char)
    (h : pairwiseAdj R l = true) : pairwiseAdj R (stripR l) = true := by
  obtain ⟨t, ht⟩ := stripR_append_exists l
  exact pairwiseAdj_append_elim_left R (stripR l) t (by rw [← ht]; exact h)

theorem pairwiseAdj_stripL (R : Char → Char → Bool) (l : List Char)
    (h : pairwiseAdj R l = true) : pairwiseAdj R (stripL l) = true := by
  rw [stripL]
  refine pairwiseAdj_stripR R _ ?_
  refine pairwiseAdj_append_elim_right R (l.takeWhile pyIsSpace) _ ?_
  rw [List.takeWhile_append_dropWhile]
  exact h

theorem stripR_last_not_ws : ∀ (l : List Char) (c : Char),
    (stripR l).getLast? = some c → pyIsSpace c = false := by
  intro l
  induction l with
  | nil => intro c h; cases h
  | cons a rest ih =>
    intro c h
    rw [stripR] at h
    split at h
    · cases h
    · next hcond =>
      cases hs : stripR rest with
      | nil =>
        rw [hs] at h
        rw [List.getLast?_singleton] at h
        injection h with h
        subst h
        cases hws : pyIsSpace a with
        | false => rfl
        | true => exact absurd (by rw [hs, hws]; rfl) hcond
      | cons x xs =>
        rw [hs, List.getLast?_cons_cons] at h
        exact ih c (by rw [hs]; exact h)

theorem stripL_last_not_ws (l : List Char) (c : Char)
    (h : (stripL l).getLast? = some c) : pyIsSpace c = false :=
  stripR_last_not_ws _ c h

theorem dotsGo_false_head : ∀ (l : List Char), (dotsGo false l).head? = l.head?
  | [] => rfl
  | [c] => by rw [dotsGo]; simp
  | c :: d :: rest => by
    rw [dotsGo]
    simp only [Bool.false_eq_true, if_false]
    split
    · next hcond =>
      obtain ⟨h1, _⟩ : c = '.' ∧ d = '.' := by simpa using hcond
      subst h1
      rfl
    · rfl

theorem dotsGo_subset : ∀ (l : List Char) (b : Bool) (c : Char),
    c ∈ dotsGo b l → c ∈ l ∨ c = '.'
  | [], _, c, h => absurd h (List.not_mem_nil c)
  | [a], b, c, h => by
    rw [dotsGo] at h
    split at h
    · cases h
    · exact Or.inl h
  | a :: d :: rest, b, c, h => by
    rw [dotsGo] at h
    split at h
    · split at h
      · rcases dotsGo_subset (d :: rest) true c h with h | h
        · exact Or.inl (List.mem_cons_of_mem _ h)
        · exact Or.inr h
      · rcases List.mem_cons.mp h with rfl | h
        · exact Or.inl (List.mem_cons_self _ _)
        · rcases dotsGo_subset (d :: rest) false c h with h | h
          · exact Or.inl (List.mem_cons_of_mem _ h)
          · exact Or.inr h
    · split at h
      · rcases List.mem_cons.mp h with rfl | h
        · exact Or.inr rfl
        · rcases dotsGo_subset rest true c h with h | h
          · exact Or.inl (List.mem_cons_of_mem _ (List.mem_cons_of_mem _ h))
          · exact Or.inr h
      · rcases List.mem_cons.mp h with rfl | h
        · exact Or.inl (List.mem_cons_self _ _)
        · rcases dotsGo_subset (d :: rest) false c h with h | h
          · exact Or.inl (List.mem_cons_of_mem _ h)
          · exact Or.inr h

theorem dotsGo_pairwise (R : Char → Char → Bool) : ∀ (l : List Char),
    (pairwiseAdj R l = true → pairwiseAdj R (dotsGo false l) = true) ∧
    (pairwiseAdj R ('.' :: l) = true → pairwiseAdj R ('.' :: dotsGo true l) = true)
  | [] => ⟨fun _ => rfl, fun _ => rfl⟩
  | [c] => by
    constructor
    · intro h
      rw [dotsGo]
      simpa using h
    · intro h
      rw [dotsGo]
      split
      · rfl
      · exact h
  | c :: d :: rest => by
    have main := dotsGo_pairwise R (d :: rest)
    have main2 := dotsGo_pairwise R rest
    constructor
    · intro h
      obtain ⟨hhd, htl⟩ := pairwiseAdj_cons_elim R c _ h
      rw [dotsGo]
      simp only [Bool.false_eq_true, if_false]
      split
      · next hcond =>
        obtain ⟨h1, h2⟩ : c = '.' ∧ d = '.' := by simpa using hcond
        subst h1
        subst h2
        exact main2.2 htl
      · refine pairwiseAdj_cons_intro _ _ _ ?_ (main.1 htl)
        cases hh : (dotsGo false (d :: rest)).head? with
        | none => rw [headOk, hh]
        | some y =>
          rw [headOk, hh]
          have hy : (d :: rest).head? = some y := (dotsGo_false_head (d :: rest)) ▸ hh
          rw [List.head?_cons] at hy
          injection hy with hy
          subst hy
          exact hhd
    · intro h
      obtain ⟨hhd, htl⟩ := pairwiseAdj_cons_elim R '.' _ h
      obtain ⟨hhd2, htl2⟩ := pairwiseAdj_cons_elim R c _ htl
      rw [dotsGo]
      simp only [if_true]
      split
      · next hc =>
        subst hc
        exact main.2 htl
      · refine pairwiseAdj_cons_intro _ _ _ hhd ?_
        refine pairwiseAdj_cons_intro _ _ _ ?_ (main.1 htl2)
        cases hh : (dotsGo false (d :: rest)).head? with
        | none => rw [headOk, hh]
        | some y =>
          rw [headOk, hh]
          have hy : (d :: rest).head? = some y := (dotsGo_false_head (d :: rest)) ▸ hh
          rw [List.head?_cons] at hy
          injection hy with hy
          subst hy
          exact hhd2

theorem dotsGo_noDblDot : ∀ (l : List Char),
    pairwiseAdj noDblDot (dotsGo false l) = true ∧
    (pairwiseAdj noDblDot (dotsGo true l) = true ∧
      ∀ c, (dotsGo true l).head? = some c → c ≠ '.')
  | [] => ⟨rfl, rfl, fun c h => by cases h⟩
  | [a] => by
    refine ⟨?_, ?_, ?_⟩
    · rw [dotsGo]
      simp [pairwiseAdj, headOk]
    · rw [dotsGo]
      split
      · rfl
      · simp [pairwiseAdj, headOk]
    · intro c h
      rw [dotsGo] at h
      split at h
      · cases h
      · next hcond =>
        rw [List.head?_cons] at h
        injection h with h
        subst h
        intro e
        exact hcond (by simp [e])
  | a :: d :: rest => by
    have main := dotsGo_noDblDot (d :: rest)
    have main2 := dotsGo_noDblDot rest
    refine ⟨?_, ?_, ?_⟩
    · rw [dotsGo]
      simp only [Bool.false_eq_true, if_false]
      split
      · refine pairwiseAdj_cons_intro _ _ _ ?_ main2.2.1
        cases hh : (dotsGo true rest).head? with
        | none => rw [headOk, hh]
        | some y =>
          rw [headOk, hh]
          exact noDblDot_of_right _ _ (main2.2.2 y hh)
      · next hcond =>
        refine pairwiseAdj_cons_intro _ _ _ ?_ main.1
        cases hh : (dotsGo false (d :: rest)).head? with
        | none => rw [headOk, hh]
        | some y =>
          rw [headOk, hh]
          have hy : (d :: rest).head? = some y := (dotsGo_false_head (d :: rest)) ▸ hh
          rw [List.head?_cons] at hy
          injection hy with hy
          subst hy
          by_cases ha : a = '.'
          · refine noDblDot_of_right _ _ ?_
            intro e
            exact hcond (by simp [ha, e])
          · exact noDblDot_of_left _ _ ha
    · rw [dotsGo]
      simp only [if_true]
      split
      · exact main.2.1
      · next ha =>
        refine pairwiseAdj_cons_intro _ _ _ ?_ main.1
        exact headOk_of _ _ _ fun y => noDblDot_of_left _ _ ha
    · intro c h
      rw [dotsGo] at h
      simp only [if_true] at h
      split at h
      · exact main.2.2 c h
      · next ha =>
        rw [List.head?_cons] at h
        injection h with h
        subst h
        exact ha

theorem dotsGo_last : ∀ (l : List Char) (b : Bool) (c : Char),
    (dotsGo b l).getLast? = some c → c = '.' ∨ l.getLast? = some c
  | [], _, c, h => by cases h
  | [a], b, c, h => by
    rw [dotsGo] at h
    split at h
    · cases h
    · rw [List.getLast?_singleton] at h
      injection h with h
      subst h
      exact Or.inr (List.getLast?_singleton a)
  | a :: d :: rest, b, c, h => by
    rw [dotsGo] at h
    split at h
    · split at h
      · rcases dotsGo_last (d :: rest) true c h with h | h
        · exact Or.inl h
        · exact Or.inr (by rw [List.getLast?_cons_cons]; exact h)
      · cases hx : dotsGo false (d :: rest) with
        | nil =>
          exfalso
          have := dotsGo_false_head (d :: rest)
          rw [hx] at this
          cases this
        | cons x xs =>
          rw [hx, List.getLast?_cons_cons] at h
          rcases dotsGo_last (d :: rest) false c (by rw [hx]; exact h) with h | h
          · exact Or.inl h
          · exact Or.inr (by rw [List.getLast?_cons_cons]; exact h)
    · split at h
      · cases hx : dotsGo true rest with
        | nil =>
          rw [hx, List.getLast?_singleton] at h
          injection h with h
          subst h
          exact Or.inl rfl
        | cons x xs =>
          rw [hx, List.getLast?_cons_cons] at h
          rcases dotsGo_last rest true c (by rw [hx]; exact h) with h | h
          · exact Or.inl h
          · cases rest with
            | nil => cases h
            | cons r rs =>
              refine Or.inr ?_
              rw [List.getLast?_cons_cons, List.getLast?_cons_cons]
              exact h
      · cases hx : dotsGo false (d :: rest) with
        | nil =>
          exfalso
          have := dotsGo_false_head (d :: rest)
          rw [hx] at this
          cases this
        | cons x xs =>
          rw [hx, List.getLast?_cons_cons] at h
          rcases dotsGo_last (d :: rest) false c (by rw [hx]; exact h) with h | h
          · exact Or.inl h
          · exact Or.inr (by rw [List.getLast?_cons_cons]; exact h)

theorem pairwiseAdj_append_single (R : Char → Char → Bool) : ∀ (l : List Char) (x : Char),
    pairwiseAdj R l = true → (∀ c, l.getLast? = some c → R c x = true) →
    pairwiseAdj R (l ++ [x]) = true := by
  intro l
  induction l with
  | nil => intro x _ _; rfl
  | cons a rest ih =>
    intro x hpw hlast
    obtain ⟨hh, ht⟩ := pairwiseAdj_cons_elim R a rest hpw
    rw [List.cons_append]
    refine pairwiseAdj_cons_intro _ _ _ ?_ (ih x ht ?_)
    · cases rest with
      | nil => exact hlast a (List.getLast?_singleton a)
      | cons b rest2 => exact hh
    · intro c hc
      refine hlast c ?_
      cases rest with
      | nil => cases hc
      | cons b rest2 => rw [List.getLast?_cons_cons]; exact hc

/-- The tail of the `clean_text_for_tts` pipeline (from the newline
replacement onward) always produces output in `GoodOut` shape. -/
theorem goodOut_pipeline (t5 : List Char) :
    GoodOut (ensureTerminal (dotsGo false (stripL (punctLetterGo (punctWsGo none
      (wsPunctGo none (collapseSpacesAux false
        (t5.map fun c => if c = '\n' then ' ' else c)))))))) := by
  set t6 := t5.map fun c => if c = '\n' then ' ' else c with ht6
  have hNl6 : '\n' ∉ t6 := by
    rw [ht6]
    intro hm
    obtain ⟨x, hx, he⟩ := List.mem_map.mp hm
    by_cases hxn : x = '\n'
    · rw [if_pos hxn] at he; cases he
    · rw [if_neg hxn] at he; exact hxn he
  set t7 := collapseSpacesAux false t6 with ht7
  have hNl7 : '\n' ∉ t7 := fun hm => hNl6 (collapseSpacesAux_subset t6 false _ hm)
  have hDbl7 : pairwiseAdj noDblSpace t7 = true := (collapseSpacesAux_good t6).2 false
  set t8 := wsPunctGo none t7 with ht8
  have hNl8 : '\n' ∉ t8 := wsPunctGo_noNl t7 none hNl7 (fun b hb => by cases hb)
  have hDbl8 : pairwiseAdj noDblSpace t8 = true := wsPunctGo_noDbl t7 none hDbl7
  have hWp8 : pairwiseAdj noWsPunct t8 = true := wsPunctGo_est t7 none (fun b hb => by cases hb)
  have e9 : punctWsGo none t8 = t8 := (punctWsGo_id_both t8).1 hWp8
  rw [e9]
  set t10 := punctLetterGo t8 with ht10
  have hNl10 : '\n' ∉ t10 := by
    intro hm
    rcases punctLetterGo_subset t8 _ hm with h | h
    · exact hNl8 h
    · exact absurd h (by decide)
  have hDbl10 : pairwiseAdj noDblSpace t10 = true :=
    punctLetterGo_pairwise noDblSpace
      (fun c d hp hl => ⟨noDblSpace_of_left c ' ' (punct_ne_space c hp),
        noDblSpace_of_right ' ' d (letter_ne_space d hl)⟩) t8 hDbl8
  have hWp10 : pairwiseAdj noWsPunct t10 = true :=
    punctLetterGo_pairwise noWsPunct
      (fun c d hp hl => ⟨noWsPunct_of_left c ' ' (punct_not_ws c hp),
        noWsPunct_of_right ' ' d (letter_not_punct d hl)⟩) t8 hWp8
  have hPl10 : pairwiseAdj noPunctLetter t10 = true := punctLetterGo_est t8
  set t11 := stripL t10 with ht11
  have hNl11 : '\n' ∉ t11 := fun hm => hNl10 ((stripL_sublist t10).mem hm)
  have hDbl11 : pairwiseAdj noDblSpace t11 = true := pairwiseAdj_stripL _ _ hDbl10
  have hWp11 : pairwiseAdj noWsPunct t11 = true := pairwiseAdj_stripL _ _ hWp10
  have hPl11 : pairwiseAdj noPunctLetter t11 = true := pairwiseAdj_stripL _ _ hPl10
  have hHead11 : ∀ c, t11.head? = some c → pyIsSpace c = false :=
    fun c hc => stripL_head_nonws t10 c hc
  have hLast11 : ∀ c, t11.getLast? = some c → pyIsSpace c = false :=
    fun c hc => stripL_last_not_ws t10 c hc
  set t12 := dotsGo false t11 with ht12
  have hNl12 : '\n' ∉ t12 := by
    intro hm
    rcases dotsGo_subset t11 false _ hm with h | h
    · exact hNl11 h
    · exact absurd h (by decide)
  have hDbl12 : pairwiseAdj noDblSpace t12 = true := (dotsGo_pairwise noDblSpace t11).1 hDbl11
  have hWp12 : pairwiseAdj noWsPunct t12 = true := (dotsGo_pairwise noWsPunct t11).1 hWp11
  have hPl12 : pairwiseAdj noPunctLetter t12 = true :=
    (dotsGo_pairwise noPunctLetter t11).1 hPl11
  have hDd12 : pairwiseAdj noDblDot t12 = true := (dotsGo_noDblDot t11).1
  have hHead12 : ∀ c, t12.head? = some c → pyIsSpace c = false := by
    intro c hc
    refine hHead11 c ?_
    rw [← dotsGo_false_head t11]
    exact hc
  have hLast12 : ∀ c, t12.getLast? = some c → pyIsSpace c = false := by
    intro c hc
    rcases dotsGo_last t11 false c hc with rfl | h
    · decide
    · exact hLast11 c h
  rw [ensureTerminal]
  split
  · next hcond =>
    obtain ⟨hne, hnt⟩ := hcond
    right
    refine ⟨?_, ?_, ?_, ?_, ?_, ?_, ?_⟩
    · intro hm
      rcases List.mem_append.mp hm with h | h
      · exact hNl12 h
      · exact absurd (List.mem_singleton.mp h) (by decide)
    · refine pairwiseAdj_append_single _ _ _ hDbl12 ?_
      intro c _
      exact noDblSpace_of_right c '.' (by decide)
    · refine pairwiseAdj_append_single _ _ _ hWp12 ?_
      intro c hc
      exact noWsPunct_of_left c '.' (hLast12 c hc)
    · refine pairwiseAdj_append_single _ _ _ hPl12 ?_
      intro c _
      exact noPunctLetter_of_right c '.' (by decide)
    · refine pairwiseAdj_append_single _ _ _ hDd12 ?_
      intro c hc
      refine noDblDot_of_left c '.' ?_
      intro e
      subst e
      exact hnt (Or.inl hc)
    · intro c hc
      cases ht : t12 with
      | nil => exact absurd (by rw [ht]; rfl) hne
      | cons y ys =>
        rw [ht, List.cons_append, List.head?_cons] at hc
        injection hc with hc
        rw [← hc]
        exact hHead12 y (by rw [ht]; rfl)
    · left
      exact List.getLast?_concat _
  · next hcond =>
    by_cases hi : t12.isEmpty
    · left
      exact List.isEmpty_iff.mp hi
    · right
      have hterm : t12.getLast? = some '.' ∨ t12.getLast? = some '!' ∨
          t12.getLast? = some '?' := by
        by_contra hno
        exact hcond ⟨hi, hno⟩
      exact ⟨hNl12, hDbl12, hWp12, hPl12, hDd12, hHead12, hterm⟩

/-- The output of `clean_text_for_tts` is always in `GoodOut` shape. -/
theorem cleanTextForTts_good (text : List Char) : GoodOut (cleanTextForTts text) := by
  by_cases hemp : text.isEmpty
  · left
    rw [cleanTextForTts, if_pos hemp]
  · rw [cleanTextForTts, if_neg hemp]
    exact goodOut_pipeline _

/-- C6: the text normaliser is idempotent — applying `clean_text_for_tts`
to its own output is a no-op, for every input string. -/
theorem cleanTextForTts_idempotent (text : List Char) :
    cleanTextForTts (cleanTextForTts text) = cleanTextForTts text :=
  cleanTextForTts_id_of_good _ (cleanTextForTts_good text)

/-- C10: for every input string, the output of `clean_text_for_tts`
contains no newline character and no two adjacent space characters
(hence no run of two or more spaces). -/
theorem cleanTextForTts_no_newline_no_double_space (text : List Char) :
    '\n' ∉ cleanTextForTts text ∧
    pairwiseAdj noDblSpace (cleanTextForTts text) = true := by
  rcases cleanTextForTts_good text with h | ⟨hNl, hDbl, _⟩
  · rw [h]
    exact ⟨List.not_mem_nil _, rfl⟩
  · exact ⟨hNl, hDbl⟩
